import Mathlib

/-!
Verification model of the CrawlScrap web crawler (Express + BullMQ + PostgreSQL).

Shallow embedding of the parts of the source relevant to the checked claims:
* `server/src/crawler/rateLimiter.ts` — the per-domain `RateLimiter` class;
* the jobs router (`DELETE /api/jobs/:jobId`, pause, resume handlers);
* `server/src/db/repositories/queueRepository.ts` — `addToQueue`, `getNextFromQueue`;
* `server/src/queue/queues.ts` — `addPageJobs` (BullMQ priority assignment);
* `server/src/db/repositories/pageRepository.ts` — `createPage` against the
  actual constraints declared in `server/src/db/schema.sql`;
* the job manager's `checkJobCompletion` completion detector;
* `server/src/queue/workers.ts` — `processPageJob` / `processCrawlJob` as a
  trace semantics over job counters, page rows and the BullMQ page-job queue;
* `server/src/crawler/crawler.ts` — `normalizeUrl`, `isInDomain`,
  `extractLinks`, with the WHATWG `URL` parser/serializer modelled explicitly.

Machine integers do not overflow in the modelled code paths (counters are
Postgres INTEGER incremented one by one), so counters are plain `Nat`.
-/

/-! ### Shared status enums (schema.sql: `job_status`, `page_status`) -/

/-- The `job_status` enum from schema.sql. -/
inductive JobStatus where
  | pending | running | paused | completed | failed | cancelled
deriving DecidableEq, Repr

/-- The `page_status` enum from schema.sql (also used by `url_queue.status`). -/
inductive PageStatus where
  | pending | crawling | completed | failed | skipped
deriving DecidableEq, Repr

/-- Terminal job statuses, as enumerated in `checkJobCompletion`
(`['completed', 'failed', 'cancelled'].includes(job.status)`). -/
def JobStatus.isTerminal : JobStatus → Bool
  | .completed => true
  | .failed => true
  | .cancelled => true
  | _ => false

/-! ### RateLimiter (`server/src/crawler/rateLimiter.ts`)

The class fields that `throttle` reads and writes.  Times are modelled as
`Nat` milliseconds (`Date.now()`). -/

structure RateLimiterState where
  delayMs : Nat
  lastRequest : Nat
  throttleUntil : Nat
deriving DecidableEq, Repr

/-- The `RateLimiter.throttle` (rateLimiter.ts lines 58-64):
`this.throttleUntil = Date.now() + durationMs`. -/
def RateLimiterState.throttle (s : RateLimiterState) (now durationMs : Nat) :
    RateLimiterState :=
  { s with throttleUntil := now + durationMs }

/-- The `RateLimiter.setDelay` (rateLimiter.ts lines 67-69). -/
def RateLimiterState.setDelay (s : RateLimiterState) (delayMs : Nat) :
    RateLimiterState :=
  { s with delayMs := delayMs }

/-! ### Job rows and the jobs router

`CrawlJob` keeps only the fields the modelled handlers and the detector read.
-/

structure CrawlJob where
  status : JobStatus
  maxPages : Nat
  pagesDiscovered : Nat
  pagesCrawled : Nat
  pagesFailed : Nat
  pagesSkipped : Nat
  completedAt : Option Nat
deriving DecidableEq, Repr

/-- The `DELETE /api/jobs/:jobId` (jobs router).  The handler rejects with HTTP
400 only when `job.status === 'completed' || job.status === 'cancelled'`;
otherwise it cancels the job and sets status `cancelled` with `completedAt`.
Result is (HTTP status, updated job row). -/
def cancelJobHandler (job : CrawlJob) (now : Nat) : Nat × CrawlJob :=
  if job.status = .completed ∨ job.status = .cancelled then
    (400, job)
  else
    (200, { job with status := .cancelled, completedAt := some now })

/-- The `POST /api/jobs/:jobId/pause`: 400 unless `job.status === 'running'`. -/
def pauseJobHandler (job : CrawlJob) : Nat × CrawlJob :=
  if job.status = .running then
    (200, { job with status := .paused })
  else
    (400, job)

/-- The `POST /api/jobs/:jobId/resume`: 400 unless `job.status === 'paused'`. -/
def resumeJobHandler (job : CrawlJob) : Nat × CrawlJob :=
  if job.status = .paused then
    (200, { job with status := .running })
  else
    (400, job)

/-! ### url_queue repository (`queueRepository.ts`, schema.sql `url_queue`) -/

/-- A row of `url_queue`.  `locked` models a row lock currently held by a
concurrent claimer (what `FOR UPDATE SKIP LOCKED` skips). -/
structure QueueRow where
  id : Nat
  jobId : Nat
  url : String
  normalizedUrl : String
  depth : Nat
  priority : Int
  status : PageStatus
  retryCount : Nat
  createdAt : Nat
  locked : Bool
deriving DecidableEq, Repr

/-- Input element of `addToQueue`'s `urls` array. -/
structure AddToQueueInput where
  url : String
  normalizedUrl : String
  depth : Nat
deriving DecidableEq, Repr

/-- One inserted `url_queue` row (queueRepository.ts lines 47-75).  The INSERT
lists only `(id, job_id, url, normalized_url, depth)`, so `priority`,
`status`, `retry_count` take the schema.sql defaults `0`, `'pending'`, `0`. -/
def freshQueueRow (jobId : Nat) (u : AddToQueueInput) (id now : Nat) : QueueRow :=
  { id := id, jobId := jobId, url := u.url, normalizedUrl := u.normalizedUrl
    depth := u.depth, priority := 0, status := .pending, retryCount := 0
    createdAt := now, locked := false }

/-- Does the table already hold the `(job_id, normalized_url)` key?
(`url_queue` declares `UNIQUE(job_id, normalized_url)`.) -/
def queueHasKey (db : List QueueRow) (jobId : Nat) (normalizedUrl : String) : Bool :=
  db.any fun r => r.jobId = jobId && r.normalizedUrl = normalizedUrl

/-- The `addToQueue(jobId, urls)`: batch INSERT with
`ON CONFLICT (job_id, normalized_url) DO NOTHING`.  Returns the new table and
the inserted row count (`result.rowCount`).  Fresh ids are `idBase`,
`idBase+1`, …; `now` is the shared `created_at`. -/
def addToQueue (db : List QueueRow) (jobId : Nat) (urls : List AddToQueueInput)
    (idBase now : Nat) : List QueueRow × Nat :=
  match urls with
  | [] => (db, 0)
  | u :: rest =>
      if queueHasKey db jobId u.normalizedUrl then
        addToQueue db jobId rest idBase now
      else
        let db' := db ++ [freshQueueRow jobId u idBase now]
        let (db2, n) := addToQueue db' jobId rest (idBase + 1) now
        (db2, n + 1)

/-- The `ORDER BY priority DESC, created_at ASC` order of `getNextFromQueue`.
-/
def claimOrder (a b : QueueRow) : Prop :=
  b.priority < a.priority ∨ (a.priority = b.priority ∧ a.createdAt ≤ b.createdAt)

instance : DecidableRel claimOrder := fun a b => by
  unfold claimOrder; infer_instance

instance : IsTotal QueueRow claimOrder where
  total a b := by
    rcases lt_trichotomy a.priority b.priority with h | h | h
    · exact Or.inr (Or.inl h)
    · rcases Nat.le_total a.createdAt b.createdAt with h2 | h2
      · exact Or.inl (Or.inr ⟨h, h2⟩)
      · exact Or.inr (Or.inr ⟨h.symm, h2⟩)
    · exact Or.inl (Or.inl h)

instance : IsTrans QueueRow claimOrder where
  trans a b c hab hbc := by
    rcases hab with h1 | ⟨e1, l1⟩
    · rcases hbc with h2 | ⟨e2, _⟩
      · exact Or.inl (h2.trans h1)
      · exact Or.inl (e2 ▸ h1)
    · rcases hbc with h2 | ⟨e2, l2⟩
      · exact Or.inl (e1 ▸ h2)
      · exact Or.inr ⟨e1.trans e2, l1.trans l2⟩

/-- Rows the claiming UPDATE's inner SELECT may consider:
`job_id = $1 AND status = 'pending'`, skipping rows locked elsewhere
(`FOR UPDATE SKIP LOCKED`). -/
def claimEligible (jobId : Nat) (r : QueueRow) : Bool :=
  r.jobId = jobId && r.status = .pending && !r.locked

/-- The `getNextFromQueue(jobId, limit)` (queueRepository.ts lines 77-97):
one atomic UPDATE marking the top `limit` eligible rows (by `claimOrder`)
as `'crawling'` and RETURNING the updated rows.  Result is
(returned rows, new table). -/
def getNextFromQueue (db : List QueueRow) (jobId : Nat) (limit : Nat) :
    List QueueRow × List QueueRow :=
  let eligible := db.filter (claimEligible jobId)
  let selected := (List.insertionSort claimOrder eligible).take limit
  let ids : List Nat := selected.map (fun r => r.id)
  let newDb := db.map fun r =>
    if r.id ∈ ids then { r with status := .crawling } else r
  (selected.map fun r => { r with status := .crawling }, newDb)

/-! ### BullMQ page jobs (`queue/queues.ts`) -/

/-- The fields of one element of `addPageJobs`'s `pages` argument that the
job options depend on. -/
structure PageJobInput where
  normalizedUrl : String
  depth : Nat
deriving DecidableEq, Repr

/-- BullMQ job options produced by `addPageJobs` (queues.ts lines 248-280):
`priority: 10 - Math.min(page.depth, 9)`. -/
def addPageJobsOpts (pages : List PageJobInput) : List (PageJobInput × Nat) :=
  pages.map fun page => (page, 10 - min page.depth 9)

/-! ### createPage against schema.sql (`pageRepository.ts` lines 84-104)

`createPage` executes
`INSERT INTO crawled_pages … ON CONFLICT (job_id, normalized_url) DO NOTHING`.
PostgreSQL resolves the `ON CONFLICT (cols)` clause by unique-index
inference: the statement is rejected with
`there is no unique or exclusion constraint matching the ON CONFLICT
specification` (SQLSTATE 42P10) unless some unique constraint or unique
index covers exactly those columns.  We record each table's unique column
sets as declared in schema.sql and model that inference step. -/

inductive SqlError where
  | noMatchingArbiter
deriving DecidableEq, Repr

/-- Set equality of two column lists (order-insensitive arbiter matching). -/
def columnSetEq (a b : List String) : Bool :=
  a.all (fun c => b.contains c) && b.all (fun c => a.contains c)

/-- Does some declared unique column set match the `ON CONFLICT` target? -/
def hasArbiterFor (uniqueSets : List (List String)) (target : List String) : Bool :=
  uniqueSets.any fun u => columnSetEq u target

/-- Unique column sets of `crawled_pages` in schema.sql (lines 67-105 plus
the indexes in lines 148-151): only the `id` primary key — the indexes on
`job_id`, `status`, `(job_id, status)`, `crawled_at` are not UNIQUE, and no
`UNIQUE(job_id, normalized_url)` is declared. -/
def crawledPagesUniqueSets : List (List String) := [["id"]]

/-- Unique column sets of `url_queue` in schema.sql (lines 109-129):
the `id` primary key and `UNIQUE(job_id, normalized_url)`. -/
def urlQueueUniqueSets : List (List String) :=
  [["id"], ["job_id", "normalized_url"]]

/-- A `crawled_pages` row (the columns `createPage` touches). -/
structure PageRow where
  id : Nat
  jobId : Nat
  url : String
  normalizedUrl : String
  depth : Nat
  status : PageStatus
  retryCount : Nat
deriving DecidableEq, Repr

structure CreatePageParams where
  jobId : Nat
  url : String
  normalizedUrl : String
  depth : Nat
deriving DecidableEq, Repr

/-- The `createPage(params)` (pageRepository.ts lines 84-104) run against the
schema.sql definition of `crawled_pages`.  The INSERT carries
`ON CONFLICT (job_id, normalized_url) DO NOTHING`; if an arbiter exists the
statement inserts-if-absent and on conflict falls back to selecting the
stored row, otherwise PostgreSQL rejects the statement (42P10). -/
def createPage (table : List PageRow) (p : CreatePageParams) (freshId : Nat) :
    Except SqlError (PageRow × List PageRow) :=
  if hasArbiterFor crawledPagesUniqueSets ["job_id", "normalized_url"] then
    match table.find? (fun r => r.jobId = p.jobId &&
        r.normalizedUrl = p.normalizedUrl) with
    | some existing => .ok (existing, table)
    | none =>
        let row : PageRow :=
          { id := freshId, jobId := p.jobId, url := p.url
            normalizedUrl := p.normalizedUrl, depth := p.depth
            status := .pending, retryCount := 0 }
        .ok (row, table ++ [row])
  else
    .error .noMatchingArbiter

/-! ### Completion detector (`jobs/jobManager.ts`: `checkJobCompletion`)

The detector is called every 10 s by `setInterval`.  Each call reads the job
row, the cancellation flag, `getQueueStats(jobId)` and
`getPendingCount(jobId)` and decides from that single observation. -/

/-- Result of `getQueueStats` (row counts of `url_queue` by status). -/
structure QueueStatsObs where
  pending : Nat
  crawling : Nat
  completed : Nat
  failed : Nat
  skipped : Nat
deriving DecidableEq, Repr

/-- What one `checkJobCompletion` call did. -/
inductive DetectorAction where
  | keepMonitoring
  | stopAlreadyTerminal
  | commitCancelled
  | commitTerminal (fin : JobStatus)
deriving DecidableEq, Repr

/-- The `checkJobCompletion(jobId)` as a function of one observation.  Source
logic: skip if the job is already terminal; transition to `cancelled` if the
cancellation flag is set; otherwise, if `pendingCount === 0 &&
queueStats.pending === 0 && queueStats.crawling === 0` (a single
observation), immediately commit the terminal status — `failed` when
`pagesFailed > 0 && pagesCrawled === 0`, else `completed` — with
`completedAt`.  Result: (action, updated job row). -/
def checkJobCompletion (job : CrawlJob) (cancelFlag : Bool)
    (stats : QueueStatsObs) (pendingCount : Nat) (now : Nat) :
    DetectorAction × CrawlJob :=
  if job.status.isTerminal then
    (.stopAlreadyTerminal, job)
  else if cancelFlag then
    (.commitCancelled, { job with status := .cancelled, completedAt := some now })
  else if pendingCount = 0 ∧ stats.pending = 0 ∧ stats.crawling = 0 then
    let fin : JobStatus :=
      if job.pagesFailed > 0 ∧ job.pagesCrawled = 0 then .failed else .completed
    (.commitTerminal fin, { job with status := fin, completedAt := some now })
  else
    (.keepMonitoring, job)

/-! ### URL machinery (`server/src/crawler/crawler.ts`)

`normalizeUrl` / `isInDomain` / `extractLinks` call the WHATWG `URL` class,
which is not part of the repository; we model the slice of its behaviour the
source exercises.  URLs are handled as `List Char`.  The parser accepts
`scheme://host[:port][/path][?query][#fragment]`, lower-cases scheme and
host, elides the scheme's default port, and splits the query on `&`/`=`;
percent and plus encoding and `..` segment folding are not modelled (they
do not affect the checked claims), and neither is `user:pass@` authority
userinfo. -/

abbrev Chars := List Char

def lcStr (s : Chars) : Chars := s.map Char.toLower

/-- Split at the first occurrence of `sep`; `none` if absent. -/
def splitFirst (sep : Char) : Chars → Option (Chars × Chars)
  | [] => none
  | c :: cs =>
    if c = sep then some ([], cs)
    else
      match splitFirst sep cs with
      | none => none
      | some (a, b) => some (c :: a, b)

/-- Split at the first occurrence of `sep`, keeping the whole list when
`sep` is absent. -/
def splitFirstOr (sep : Char) (l : Chars) : Chars × Option Chars :=
  match splitFirst sep l with
  | none => (l, none)
  | some (a, b) => (a, some b)

/-- Split at every occurrence of `sep` (like `String.prototype.split`). -/
def splitAll (sep : Char) : Chars → List Chars
  | [] => [[]]
  | c :: cs =>
    if c = sep then [] :: splitAll sep cs
    else
      match splitAll sep cs with
      | [] => [[c]]
      | h :: t => (c :: h) :: t

/-- Interleave `sep` between the pieces. -/
def joinSep (sep : Char) : List Chars → Chars
  | [] => []
  | [s] => s
  | s :: rest => s ++ sep :: joinSep sep rest

def schemeCharOk (c : Char) : Bool :=
  c.isAlpha || c.isDigit || c = '+' || c = '-' || c = '.'

/-- A valid URL scheme: a letter followed by letters, digits, `+`, `-`, `.`.
-/
def schemeOk : Chars → Bool
  | [] => false
  | c :: cs => c.isAlpha && cs.all schemeCharOk

/-- Parse `host[:port]`.  The host is lower-cased (as the WHATWG parser
does); the port must be a non-empty digit string.  JS keeps `URL.port` as a
string, so we do too. -/
def parseHostPort (hp : Chars) : Option (Chars × Option Chars) :=
  match splitFirst ':' hp with
  | none => if hp.isEmpty then none else some (lcStr hp, none)
  | some (h, p) =>
      if h.isEmpty then none
      else if !p.isEmpty && p.all Char.isDigit then some (lcStr h, some p)
      else none

structure UrlModel where
  scheme : Chars
  host : Chars
  port : Option Chars
  path : Chars
  query : List (Chars × Chars)
  fragment : Option Chars
deriving DecidableEq, Repr

/-- The WHATWG parser elides a port equal to the scheme's default. -/
def stripDefaultAtParse (scheme : Chars) (p : Option Chars) : Option Chars :=
  match p with
  | none => none
  | some q =>
      if (scheme = "http".data && q = "80".data) ||
         (scheme = "https".data && q = "443".data) then none
      else some q

/-- One `k=v` segment of a query string, as `URLSearchParams` reads it:
an empty segment is skipped, a segment without `=` is a key with empty
value, otherwise split at the first `=`. -/
def parsePair (seg : Chars) : Option (Chars × Chars) :=
  if seg.isEmpty then none
  else
    match splitFirst '=' seg with
    | none => some (seg, [])
    | some (k, v) => some (k, v)

def parseQuery (qs : Option Chars) : List (Chars × Chars) :=
  match qs with
  | none => []
  | some q => (splitAll '&' q).filterMap parsePair

/-- Model of `new URL(s)` on an absolute URL string; `none` models the
constructor throwing. -/
def parseUrl (s : Chars) : Option UrlModel :=
  match splitFirst ':' s with
  | none => none
  | some (schRaw, rest) =>
    match rest with
    | c1 :: c2 :: rest2 =>
      if c1 = '/' ∧ c2 = '/' then
        let sch := lcStr schRaw
        if schemeOk sch then
          let bh := splitFirstOr '#' rest2
          let hq := splitFirstOr '?' bh.1
          let hpp := splitFirstOr '/' hq.1
          let path : Chars := match hpp.2 with | none => ['/'] | some r => '/' :: r
          match parseHostPort hpp.1 with
          | none => none
          | some (h, p) =>
              some ⟨sch, h, stripDefaultAtParse sch p, path, parseQuery hq.2, bh.2⟩
        else none
      else none
    | _ => none

/-- The `URLSearchParams.toString`: `k=v` pieces joined with `&`. -/
def serializeQuery (ps : List (Chars × Chars)) : Chars :=
  joinSep '&' (ps.map fun kv => kv.1 ++ '=' :: kv.2)

/-- The `:port` (or nothing) as it appears in a serialized URL. -/
def portChars : Option Chars → Chars
  | none => []
  | some p => ':' :: p

/-- The `?query` (or nothing) as it appears in a serialized URL. -/
def queryChars (q : List (Chars × Chars)) : Chars :=
  match q with
  | [] => []
  | _ => '?' :: serializeQuery q

/-- The `#fragment` (or nothing) as it appears in a serialized URL. -/
def fragChars : Option Chars → Chars
  | none => []
  | some f => '#' :: f

/-- The `URL.toString`. -/
def serializeUrl (u : UrlModel) : Chars :=
  u.scheme ++ ':' :: '/' :: '/' ::
    (u.host ++ portChars u.port ++ u.path ++ queryChars u.query ++
     fragChars u.fragment)

/-- crawler.ts line 56: the tracking parameter names deleted by
`normalizeUrl`. -/
def trackingParams : List Chars :=
  (["utm_source", "utm_medium", "utm_campaign", "utm_term", "utm_content",
    "fbclid", "gclid"]).map String.data

def isTrackingKey (k : Chars) : Bool := trackingParams.contains k

/-- crawler.ts lines 35-40: remove default ports (`parsed.port === '80'` /
`'443'` string comparisons). -/
def stripDefaultPort (u : UrlModel) : UrlModel :=
  if (u.scheme = "http".data && u.port = some "80".data) ||
     (u.scheme = "https".data && u.port = some "443".data) then
    { u with port := none }
  else u

/-- crawler.ts lines 43-45: remove one trailing slash from the path
(except for the root): `parsed.pathname.slice(0, -1)`. -/
def stripTrailingSlash (p : Chars) : Chars :=
  if 1 < p.length ∧ p.getLast? = some '/' then p.dropLast else p

/-- JS `Array.prototype.sort` on `[key, value]` pairs compares their string
conversions, i.e. `key + ',' + value`. -/
def pairKey (kv : Chars × Chars) : String := String.mk (kv.1 ++ ',' :: kv.2)

def pairLe (a b : Chars × Chars) : Prop := pairKey a ≤ pairKey b

instance : DecidableRel pairLe := fun a b => by
  unfold pairLe; infer_instance

instance : IsTotal (Chars × Chars) pairLe where
  total a b := le_total (pairKey a) (pairKey b)

instance : IsTrans (Chars × Chars) pairLe where
  trans _ _ _ hab hbc := le_trans hab hbc

/-- crawler.ts lines 48-50: `[...params.entries()].sort()`. -/
def sortPairs (ps : List (Chars × Chars)) : List (Chars × Chars) :=
  List.insertionSort pairLe ps

/-- The mutations `normalizeUrl` performs on the parsed URL, in source
order (crawler.ts lines 32-58): lower-case hostname, remove default ports,
strip one trailing slash, drop the fragment, sort the query pairs, delete
tracking parameters. -/
def normalizeUrlModel (u : UrlModel) : UrlModel :=
  let u1 := { u with host := lcStr u.host }
  let u2 := stripDefaultPort u1
  let u3 := { u2 with path := stripTrailingSlash u2.path }
  let sorted := sortPairs u3.query
  let cleaned := sorted.filter fun kv => !isTrackingKey kv.1
  { u3 with query := cleaned, fragment := none }

/-- The `normalizeUrl` (crawler.ts lines 27-64).  The `catch` branch returns the
input unchanged when `new URL(url)` throws. -/
def normalizeUrl (s : String) : String :=
  match parseUrl s.data with
  | none => s
  | some u => String.mk (serializeUrl (normalizeUrlModel u))

/-- The `isInDomain` (crawler.ts lines 67-77): exact match or subdomain of
`domain`; `false` when the URL does not parse. -/
def isInDomain (s : String) (domain : String) : Bool :=
  match parseUrl s.data with
  | none => false
  | some u =>
      let urlDomain := lcStr u.host
      urlDomain = domain.data || ('.' :: domain.data).isSuffixOf urlDomain

/-- Keep the base path up to and including its last `/` (the directory part
used when resolving a relative reference); empty when the path has no `/`.
-/
def upToLastSlash : Chars → Chars
  | [] => []
  | c :: rest =>
      if '/' ∈ rest then c :: upToLastSlash rest
      else if c = '/' then ['/'] else []

/-- Model of `new URL(href, base)`: absolute hrefs parse on their own;
otherwise protocol-relative (`//…`), absolute-path (`/…`), query-only
(`?…`), fragment-only (`#…`) and relative-path references are resolved
against the parsed base.  `none` models the constructor throwing.
(`..`/`.` segments are carried verbatim rather than folded.) -/
def resolveUrl (href : Chars) (base : Chars) : Option UrlModel :=
  match parseUrl href with
  | some u => some u
  | none =>
    match parseUrl base with
    | none => none
    | some b =>
      match href with
      | [] => some b
      | c :: rest =>
        if c = '/' ∧ rest.head? = some '/' then
          parseUrl (b.scheme ++ ':' :: href)
        else if c = '/' then
          let bh := splitFirstOr '#' (c :: rest)
          let pq := splitFirstOr '?' bh.1
          some { b with path := pq.1, query := parseQuery pq.2, fragment := bh.2 }
        else if c = '?' then
          let qf := splitFirstOr '#' rest
          some { b with query := parseQuery (some qf.1), fragment := qf.2 }
        else if c = '#' then
          some { b with fragment := some rest }
        else
          let bh := splitFirstOr '#' (c :: rest)
          let pq := splitFirstOr '?' bh.1
          some { b with path := upToLastSlash b.path ++ pq.1,
                        query := parseQuery pq.2, fragment := bh.2 }

def isQuote (c : Char) : Bool := c = '"' || c = '\''

/-- One attempt of the scanner for `/href=["']([^"']+)["']/i` at the head
of the input: on success returns the captured group and the text after the
closing quote. -/
def tryHref : Chars → Option (Chars × Chars)
  | c1 :: c2 :: c3 :: c4 :: c5 :: c6 :: rest =>
    if c1.toLower = 'h' ∧ c2.toLower = 'r' ∧ c3.toLower = 'e' ∧
       c4.toLower = 'f' ∧ c5 = '=' ∧ isQuote c6 then
      let cap := rest.takeWhile fun c => !isQuote c
      match cap, rest.drop cap.length with
      | [], _ => none
      | _ :: _, _ :: rem2 => some (cap, rem2)
      | _ :: _, [] => none
    else none
  | _ => none

/-- Scanner loop, structurally recursive on a fuel that bounds the
remaining input length.  Each step consumes at least one character of `l`
(a successful `tryHref` consumes the whole match), so with `fuel ≥
l.length` the fuel never runs out. -/
def collectHrefsAux : Nat → Chars → List Chars
  | 0, _ => []
  | fuel + 1, l =>
    match tryHref l with
    | some (cap, rest) => cap :: collectHrefsAux fuel rest
    | none =>
      match l with
      | [] => []
      | _ :: cs => collectHrefsAux fuel cs

/-- All capture groups of the global regex scan in `extractLinks`
(crawler.ts lines 85-88): at each position try a match; on success continue
after the closing quote, otherwise advance one character. -/
def collectHrefs (l : Chars) : List Chars :=
  collectHrefsAux l.length l

/-- crawler.ts line 93: hrefs beginning with `#`, `javascript:`, `mailto:`,
`tel:` are skipped. -/
def skipHref (href : Chars) : Bool :=
  "#".data.isPrefixOf href || "javascript:".data.isPrefixOf href ||
  "mailto:".data.isPrefixOf href || "tel:".data.isPrefixOf href

/-- The per-href body of the `extractLinks` loop (crawler.ts lines 88-114):
skip non-http links, resolve against the base (a throw skips the href),
keep only in-domain URLs, and normalize. -/
def processHref (href : Chars) (base domain : String) : Option String :=
  if skipHref href then none
  else
    match resolveUrl href base.data with
    | none => none
    | some u =>
        let absUrl := String.mk (serializeUrl u)
        if isInDomain absUrl domain then some (normalizeUrl absUrl) else none

def extractLinksGo (base domain : String) :
    List Chars → List String → List String
  | [], _ => []
  | h :: t, seen =>
    match processHref h base domain with
    | none => extractLinksGo base domain t seen
    | some n =>
        if n ∈ seen then extractLinksGo base domain t seen
        else n :: extractLinksGo base domain t (n :: seen)

/-- The `extractLinks(html, baseUrl, domain)` (crawler.ts lines 80-117). -/
def extractLinks (html baseUrl domain : String) : List String :=
  extractLinksGo baseUrl domain (collectHrefs html.data) []

/-! ### Worker semantics (`queue/workers.ts`)

`processCrawlJob` / `processPageJob` as deterministic transitions over the
job counters, the job's `crawled_pages` rows and the BullMQ page-job queue.
The environment of one page-job run — the robots verdict and the fetch
result — is an event parameter.  `fetched` stands for the pattern-filtered
link list of a successful crawl (`filteredLinks`, workers.ts lines 179-196),
or `none` for a crawl that threw.  Counter updates are the
`incrementJobProgress` calls (jobRepository.ts lines 213-222, atomic SQL
`field = field + amount`).  The worker passes the page's `normalizedUrl` as
the `updatePageStatus` key, so page rows are addressed by normalized URL. -/

/-- The `crawl_jobs` columns the workers read and write. -/
structure WorkerJobRow where
  status : JobStatus
  maxPages : Nat
  maxDepth : Nat
  respectRobotsTxt : Bool
  pagesDiscovered : Nat
  pagesCrawled : Nat
  pagesFailed : Nat
  pagesSkipped : Nat
deriving DecidableEq, Repr

/-- The `crawled_pages` columns the workers touch. -/
structure WPage where
  normalizedUrl : String
  url : String
  depth : Nat
  status : PageStatus
  retryCount : Nat
deriving DecidableEq, Repr

/-- One queued BullMQ page job (`attemptsMade` is BullMQ's attempt counter).
-/
structure BullPageJob where
  url : String
  normalizedUrl : String
  depth : Nat
  attemptsMade : Nat
deriving DecidableEq, Repr

/-- queues.ts `getPageJobsQueue`: `defaultJobOptions.attempts: 3` — a page
job runs at most 3 times. -/
def bullMaxAttempts : Nat := 3

structure CrawlSys where
  job : WorkerJobRow
  pages : List WPage
  bull : List BullPageJob
  cancelled : Bool
deriving DecidableEq, Repr

/-- The `updatePageStatus` as invoked by the worker (keyed by the page's
normalized URL; `retry = some n` models passing `retryCount: n`). -/
def setPageStatus (pages : List WPage) (nurl : String) (st : PageStatus)
    (retry : Option Nat) : List WPage :=
  pages.map fun p =>
    if p.normalizedUrl = nurl then
      { p with status := st, retryCount := retry.getD p.retryCount }
    else p

/-- The guard inside `crawlPage` (crawler.ts lines 124-132): when
`respectRobotsTxt` holds and robots denies the URL, `crawlPage` throws
(`'URL blocked by robots.txt'`) before fetching; otherwise the fetch result
decides. -/
def crawlPageOutcome (respect robotsAllowed : Bool)
    (fetched : Option (List String)) : Option (List String) :=
  if respect && !robotsAllowed then none else fetched

/-- The link-discovery loop (workers.ts lines 228-257): for each filtered
link, normalize it, skip it when `urlExists`, else `createPage` at
`depth+1`, increment `pages_discovered`, and collect a new page job. -/
def discoverLoop (pages : List WPage) (bull : List BullPageJob)
    (discovered depth : Nat) :
    List String → List WPage × List BullPageJob × Nat
  | [] => (pages, bull, discovered)
  | link :: rest =>
      let nl := normalizeUrl link
      if pages.any (fun p => p.normalizedUrl = nl) then
        discoverLoop pages bull discovered depth rest
      else
        discoverLoop
          (pages ++ [{ normalizedUrl := nl, url := link, depth := depth + 1,
                       status := .pending, retryCount := 0 }])
          (bull ++ [{ url := link, normalizedUrl := nl, depth := depth + 1,
                      attemptsMade := 0 }])
          (discovered + 1) depth rest

/-- The `processPageJob` (workers.ts lines 125-293) on the queued job for
`nurl`.  In order: no-op if the job was cancelled or is not `running`
(the BullMQ job completes and leaves the queue); if
`pagesCrawled >= maxPages` mark the page `skipped` (no counter is
incremented) and return; otherwise run `crawlPage`.  On success: mark the
page `completed`, increment `pages_crawled`, and when `depth < maxDepth`
discover the filtered links.  On a throw (including the robots deny): mark
the page `failed` with `retryCount = attemptsMade + 1`, increment
`pages_failed`, and re-throw — BullMQ retries the job while
`attemptsMade + 1 < 3`, else drops it. -/
def processPageJob (s : CrawlSys) (nurl : String) (robotsAllowed : Bool)
    (fetched : Option (List String)) : CrawlSys :=
  match s.bull.find? (fun b => b.normalizedUrl = nurl) with
  | none => s
  | some bj =>
    let bullRemoved := s.bull.filter fun b => !(b.normalizedUrl = nurl)
    if s.cancelled then { s with bull := bullRemoved }
    else if s.job.status ≠ .running then { s with bull := bullRemoved }
    else if s.job.maxPages ≤ s.job.pagesCrawled then
      { s with pages := setPageStatus s.pages nurl .skipped none,
               bull := bullRemoved }
    else
      match crawlPageOutcome s.job.respectRobotsTxt robotsAllowed fetched with
      | some links =>
          let pages1 := setPageStatus s.pages nurl .completed none
          let job1 := { s.job with pagesCrawled := s.job.pagesCrawled + 1 }
          if bj.depth < s.job.maxDepth then
            let (pages2, bull2, disc) :=
              discoverLoop pages1 bullRemoved s.job.pagesDiscovered bj.depth links
            { job := { job1 with pagesDiscovered := disc }, pages := pages2,
              bull := bull2, cancelled := s.cancelled }
          else
            { s with job := job1, pages := pages1, bull := bullRemoved }
      | none =>
          let pages1 := setPageStatus s.pages nurl .failed (some (bj.attemptsMade + 1))
          let job1 := { s.job with pagesFailed := s.job.pagesFailed + 1 }
          let bull1 :=
            if bj.attemptsMade + 1 < bullMaxAttempts then
              s.bull.map fun b =>
                if b.normalizedUrl = nurl then
                  { b with attemptsMade := b.attemptsMade + 1 }
                else b
            else bullRemoved
          { s with job := job1, pages := pages1, bull := bull1 }

/-- A fresh `crawl_jobs` row (schema.sql defaults: counters 0, status
`pending`). -/
def newCrawlJobRow (maxPages maxDepth : Nat) (respect : Bool) : WorkerJobRow :=
  { status := .pending, maxPages := maxPages, maxDepth := maxDepth
    respectRobotsTxt := respect, pagesDiscovered := 0, pagesCrawled := 0
    pagesFailed := 0, pagesSkipped := 0 }

/-- The `processCrawlJob` (workers.ts lines 60-122): set the job `running`,
`createPage` the seed at depth 0, enqueue it, and increment
`pages_discovered` by 1. -/
def processCrawlJob (cfg : WorkerJobRow) (seedUrl : String) : CrawlSys :=
  let nurl := normalizeUrl seedUrl
  { job := { cfg with status := .running,
                      pagesDiscovered := cfg.pagesDiscovered + 1 }
    pages := [{ normalizedUrl := nurl, url := seedUrl, depth := 0,
                status := .pending, retryCount := 0 }]
    bull := [{ url := seedUrl, normalizedUrl := nurl, depth := 0,
               attemptsMade := 0 }]
    cancelled := false }

/-- One observable worker event: a run of `processPageJob` on the queued
job for `nurl`, under a robots verdict and a fetch result. -/
inductive CrawlEvent where
  | pageJob (nurl : String) (robotsAllowed : Bool)
      (fetched : Option (List String))
deriving DecidableEq, Repr

def runCrawl (s : CrawlSys) : List CrawlEvent → CrawlSys
  | [] => s
  | .pageJob n a f :: rest => runCrawl (processPageJob s n a f) rest

/-- The run in which the seed page job of a fresh job (maxPages 100,
maxDepth 10, robots respected) fails all three of its BullMQ attempts. -/
def failThreeTrace : CrawlSys :=
  runCrawl (processCrawlJob (newCrawlJobRow 100 10 true) "https://u.test/")
    [.pageJob "https://u.test/" true none,
     .pageJob "https://u.test/" true none,
     .pageJob "https://u.test/" true none]

/-- The run in which the seed page job of a fresh job is denied by
robots.txt on its first attempt (the fetch would have succeeded). -/
def robotsDenyTrace : CrawlSys :=
  runCrawl (processCrawlJob (newCrawlJobRow 100 10 true) "https://u.test/")
    [.pageJob "https://u.test/" false (some ["https://u.test/a"])]

/-! ### Well-formedness of parsed URLs

`UrlWF` captures the shape invariants every `parseUrl` result satisfies;
they are exactly what makes `serializeUrl` left-invertible. -/

def SchemeWF (s : Chars) : Prop := schemeOk s = true ∧ lcStr s = s

def HostWF (h : Chars) : Prop :=
  h ≠ [] ∧ lcStr h = h ∧ ':' ∉ h ∧ '/' ∉ h ∧ '?' ∉ h ∧ '#' ∉ h

def PortWF (scheme : Chars) : Option Chars → Prop
  | none => True
  | some p => p ≠ [] ∧ p.all Char.isDigit = true ∧
      stripDefaultAtParse scheme (some p) = some p

def PathWF (p : Chars) : Prop := (∃ t, p = '/' :: t) ∧ '?' ∉ p ∧ '#' ∉ p

def PairWF (kv : Chars × Chars) : Prop :=
  '&' ∉ kv.1 ∧ '=' ∉ kv.1 ∧ '#' ∉ kv.1 ∧ '&' ∉ kv.2 ∧ '#' ∉ kv.2

def UrlWF (u : UrlModel) : Prop :=
  SchemeWF u.scheme ∧ HostWF u.host ∧ PortWF u.scheme u.port ∧
  PathWF u.path ∧ ∀ kv ∈ u.query, PairWF kv

/-- A path on which `stripTrailingSlash` is idempotent: not a path of
length ≥ 3 ending in two slashes (each `normalizeUrl` application removes
only one trailing slash). -/
def GoodPath (p : Chars) : Prop :=
  ¬ (2 < p.length ∧ p.getLast? = some '/' ∧ p.dropLast.getLast? = some '/')

instance : DecidablePred GoodPath := fun p => by
  unfold GoodPath; infer_instance

/-- The `s` either does not parse, or parses to a URL whose path has at most
one trailing slash. -/
def parsesGoodPath (s : String) : Bool :=
  match parseUrl s.data with
  | none => true
  | some u => decide (GoodPath u.path)

/-! ### Claim theorems -/

/-- Claim C1 (refuted exhibit): the counter invariant
`pagesCrawled + pagesFailed + pagesSkipped ≤ pagesDiscovered` is violated by
the code.  The page-failure path of `processPageJob` increments
`pages_failed` once per retry attempt while the page was discovered once, so
after the seed page fails its three BullMQ attempts the job row reads
`pagesDiscovered = 1` but `pagesCrawled + pagesFailed + pagesSkipped = 3`. -/
theorem C1_counter_invariant_violated :
    failThreeTrace.job.pagesDiscovered = 1 ∧
    failThreeTrace.job.pagesCrawled + failThreeTrace.job.pagesFailed +
      failThreeTrace.job.pagesSkipped = 3 ∧
    ¬ (failThreeTrace.job.pagesCrawled + failThreeTrace.job.pagesFailed +
        failThreeTrace.job.pagesSkipped ≤ failThreeTrace.job.pagesDiscovered) := by
  decide

/-- Claim C2 (refuted exhibit): a robots.txt deny with `respectRobotsTxt`
true makes `crawlPage` throw, and `processPageJob`'s generic catch marks the
page `failed` with `retryCount = 1`, increments `pages_failed`, and leaves a
retry attempt queued — the deny is not turned into `skipped`, it is counted
as a failure, and it does count against retries. -/
theorem C2_robots_deny_marks_failed :
    robotsDenyTrace.pages =
      [{ normalizedUrl := "https://u.test/", url := "https://u.test/",
         depth := 0, status := .failed, retryCount := 1 }] ∧
    robotsDenyTrace.job.pagesFailed = 1 ∧
    robotsDenyTrace.job.pagesSkipped = 0 ∧
    robotsDenyTrace.bull =
      [{ url := "https://u.test/", normalizedUrl := "https://u.test/",
         depth := 0, attemptsMade := 1 }] := by decide

/-- Claim C3 (refuted exhibit): `checkJobCompletion` commits the terminal
transition on the very first observation with zero pending and zero claimed
frontier entries — there is no grace-period re-check, so a single transient
zero observation transitions a running job to `completed`. -/
theorem C3_single_zero_observation_commits :
    checkJobCompletion
      { status := .running, maxPages := 100, pagesDiscovered := 5
        pagesCrawled := 3, pagesFailed := 0, pagesSkipped := 0
        completedAt := none }
      false { pending := 0, crawling := 0, completed := 3, failed := 0, skipped := 0 } 0 42
    = (.commitTerminal .completed,
       { status := .completed, maxPages := 100, pagesDiscovered := 5
         pagesCrawled := 3, pagesFailed := 0, pagesSkipped := 0
         completedAt := some 42 }) := by decide

/-- Claim C5 counterexample: `CancelJob` on a job whose status is `failed`
(a terminal status) does not return 400 and does change the status — the
handler only rejects `completed` and `cancelled`, so a failed job is moved
to `cancelled`. -/
theorem C5_counterexample :
    (cancelJobHandler
      { status := .failed, maxPages := 10, pagesDiscovered := 1
        pagesCrawled := 0, pagesFailed := 1, pagesSkipped := 0
        completedAt := some 7 } 9).1 ≠ 400 ∧
    (cancelJobHandler
      { status := .failed, maxPages := 10, pagesDiscovered := 1
        pagesCrawled := 0, pagesFailed := 1, pagesSkipped := 0
        completedAt := some 7 } 9).2.status = .cancelled := by decide

/-- Claim C5 (amended): `completed` and `cancelled` are absorbing under the
public cancel/pause/resume operations (each returns 400 and leaves the job
unchanged), but `failed` is not terminal for `CancelJob`: cancelling a
failed job succeeds (HTTP 200) and rewrites its status to `cancelled`. -/
theorem C5_terminal_statuses_amended (job : CrawlJob) (now : Nat) :
    ((job.status = .completed ∨ job.status = .cancelled) →
      cancelJobHandler job now = (400, job) ∧
      pauseJobHandler job = (400, job) ∧
      resumeJobHandler job = (400, job)) ∧
    (job.status = .failed →
      (cancelJobHandler job now).1 = 200 ∧
      (cancelJobHandler job now).2.status = .cancelled) := by
  constructor
  · intro h
    refine ⟨?_, ?_, ?_⟩
    · simp only [cancelJobHandler, if_pos h]
    · rcases h with h | h <;> simp [pauseJobHandler, h]
    · rcases h with h | h <;> simp [resumeJobHandler, h]
  · intro h
    have hne : ¬ (job.status = .completed ∨ job.status = .cancelled) := by
      rcases job with ⟨st, _, _, _, _, _, _⟩
      cases st <;> simp_all
    simp [cancelJobHandler, hne]

/-- Witness for `C5_terminal_statuses_amended` at concrete jobs. -/
theorem C5_terminal_statuses_amended_witness :
    (cancelJobHandler
      { status := .completed, maxPages := 10, pagesDiscovered := 1
        pagesCrawled := 1, pagesFailed := 0, pagesSkipped := 0
        completedAt := some 7 } 9
      = (400, { status := .completed, maxPages := 10, pagesDiscovered := 1
                pagesCrawled := 1, pagesFailed := 0, pagesSkipped := 0
                completedAt := some 7 })) ∧
    (cancelJobHandler
      { status := .failed, maxPages := 10, pagesDiscovered := 1
        pagesCrawled := 0, pagesFailed := 1, pagesSkipped := 0
        completedAt := some 7 } 9).2.status = .cancelled :=
  ⟨((C5_terminal_statuses_amended _ 9).1 (Or.inl rfl)).1,
   ((C5_terminal_statuses_amended _ 9).2 rfl).2⟩

/-- Claim C6 counterexample: `throttle` does not compute
`max(throttleUntil, now + d)` — with `throttleUntil = 100`, `now = 0`,
`d = 10` the result is `10`, which differs from the claimed `max` and moves
`throttleUntil` earlier than its previous value. -/
theorem C6_counterexample :
    (RateLimiterState.throttle
        { delayMs := 1000, lastRequest := 0, throttleUntil := 100 } 0 10).throttleUntil
      ≠ max 100 (0 + 10) ∧
    (RateLimiterState.throttle
        { delayMs := 1000, lastRequest := 0, throttleUntil := 100 } 0 10).throttleUntil
      < 100 := by decide

/-- Claim C6 (amended): `throttle(d)` at time `now` sets
`throttleUntil := now + d` unconditionally (overwriting, not extending, any
later previous value) and leaves the other limiter fields unchanged. -/
theorem C6_throttle_amended (s : RateLimiterState) (now d : Nat) :
    (s.throttle now d).throttleUntil = now + d ∧
    (s.throttle now d).delayMs = s.delayMs ∧
    (s.throttle now d).lastRequest = s.lastRequest :=
  ⟨rfl, rfl, rfl⟩

/-- Witness for `C6_throttle_amended` at a concrete state. -/
theorem C6_throttle_amended_witness :
    (RateLimiterState.throttle
        { delayMs := 1000, lastRequest := 4, throttleUntil := 100 } 7 10).throttleUntil
      = 7 + 10 :=
  (C6_throttle_amended { delayMs := 1000, lastRequest := 4, throttleUntil := 100 } 7 10).1

/-- Claim C7 counterexample: the frontier entry `addToQueue` creates for a
depth-0 URL has priority `0` (the schema.sql column default — the INSERT
does not set `priority`), not `10 − min(0, 9) = 10`. -/
theorem C7_counterexample :
    ((addToQueue [] 1 [⟨"https://a.test/", "https://a.test/", 0⟩] 0 0).1.map
        fun r => r.priority) = [0] ∧
    (0 : Int) ≠ 10 - min 0 9 := by decide

/-- Claim C7 (amended): every row `addToQueue` inserts into `url_queue`
carries the schema default priority `0`; the formula `10 − min(depth, 9)`
is applied only to the ephemeral BullMQ page jobs created by `addPageJobs`.
-/
theorem C7_priority_amended (db : List QueueRow) (jobId : Nat)
    (urls : List AddToQueueInput) (idBase now : Nat) :
    (∀ r ∈ (addToQueue db jobId urls idBase now).1, r ∈ db ∨ r.priority = 0) ∧
    (∀ pages : List PageJobInput, ∀ x ∈ addPageJobsOpts pages,
        x.2 = 10 - min x.1.depth 9) := by
  constructor
  · induction urls generalizing db idBase with
    | nil => intro r hr; exact Or.inl hr
    | cons u rest ih =>
        intro r hr
        simp only [addToQueue] at hr
        split at hr
        · exact ih db idBase r hr
        · have := ih (db ++ [freshQueueRow jobId u idBase now]) (idBase + 1) r
          rcases this hr with hmem | hp
          · rcases List.mem_append.mp hmem with h | h
            · exact Or.inl h
            · simp only [List.mem_singleton] at h
              subst h
              exact Or.inr rfl
          · exact Or.inr hp
  · intro pages x hx
    simp only [addPageJobsOpts, List.mem_map] at hx
    obtain ⟨p, _, rfl⟩ := hx
    rfl

/-- Witness for `C7_priority_amended` at a concrete call. -/
theorem C7_priority_amended_witness :
    ∃ r ∈ (addToQueue [] 1 [⟨"https://a.test/", "https://a.test/", 0⟩] 0 0).1,
      (r ∈ ([] : List QueueRow) ∨ r.priority = 0) :=
  ⟨freshQueueRow 1 ⟨"https://a.test/", "https://a.test/", 0⟩ 0 0,
   by decide,
   (C7_priority_amended [] 1 [⟨"https://a.test/", "https://a.test/", 0⟩] 0 0).1
     _ (by decide)⟩

/-- Claim C10 (refuted exhibit): schema.sql declares no unique constraint on
`crawled_pages (job_id, normalized_url)` (only `url_queue` has one), so the
`ON CONFLICT (job_id, normalized_url)` clause of `createPage` has no arbiter
index and PostgreSQL rejects every `createPage` INSERT with SQLSTATE 42P10
instead of behaving idempotently. -/
theorem C10_createPage_rejected :
    createPage [] ⟨1, "https://a.test/", "https://a.test/", 0⟩ 0
      = .error .noMatchingArbiter ∧
    hasArbiterFor crawledPagesUniqueSets ["job_id", "normalized_url"] = false ∧
    hasArbiterFor urlQueueUniqueSets ["job_id", "normalized_url"] = true :=
  ⟨rfl, rfl, rfl⟩

/-- Claim C4: `getNextFromQueue(jobId, n)` claims atomically: it returns at
most `n` rows; every returned row is a previously pending, unlocked row of
this job, returned in its claimed (`'crawling'`) form — never a row that was
not pending; the new table marks exactly the selected rows as `'crawling'`
and keeps every other row unchanged; and the selection is top-priority
first with ties broken by oldest `created_at` — every returned row is
`claimOrder`-before every eligible row left unclaimed. -/
theorem C4_getNextFromQueue_spec (db : List QueueRow) (jobId : Nat) (limit : Nat) :
    (getNextFromQueue db jobId limit).1.length ≤ limit ∧
    (∀ r ∈ (getNextFromQueue db jobId limit).1,
        r.status = .crawling ∧
        ∃ r₀ ∈ db, r₀.jobId = jobId ∧ r₀.status = .pending ∧ r₀.locked = false ∧
          r = { r₀ with status := .crawling }) ∧
    (∀ r ∈ db,
        (r.id ∈ (getNextFromQueue db jobId limit).1.map (fun x => x.id) →
          { r with status := .crawling } ∈ (getNextFromQueue db jobId limit).2) ∧
        (r.id ∉ (getNextFromQueue db jobId limit).1.map (fun x => x.id) →
          r ∈ (getNextFromQueue db jobId limit).2)) ∧
    (∀ r' ∈ (getNextFromQueue db jobId limit).2,
        r' ∈ db ∨ ∃ r ∈ db,
          r.id ∈ (getNextFromQueue db jobId limit).1.map (fun x => x.id) ∧
          r' = { r with status := .crawling }) ∧
    (∀ r ∈ (getNextFromQueue db jobId limit).1, ∀ e ∈ db,
        claimEligible jobId e = true →
        e.id ∉ (getNextFromQueue db jobId limit).1.map (fun x => x.id) →
        claimOrder r e) := by
  have hidmap :
      (getNextFromQueue db jobId limit).1.map (fun x => x.id) =
      (((List.insertionSort claimOrder (db.filter (claimEligible jobId))).take
          limit).map (fun x => x.id)) := by
    simp only [getNextFromQueue, List.map_map]
    rfl
  refine ⟨?_, ?_, ?_, ?_, ?_⟩
  · simp only [getNextFromQueue, List.length_map, List.length_take]
    exact min_le_left _ _
  · intro r hr
    simp only [getNextFromQueue, List.mem_map] at hr
    obtain ⟨s, hs, rfl⟩ := hr
    have hsdb : s ∈ db.filter (claimEligible jobId) :=
      (List.mem_insertionSort claimOrder).1 (List.take_subset _ _ hs)
    have ⟨hmem, helig⟩ := List.mem_filter.1 hsdb
    simp only [claimEligible, Bool.and_eq_true, decide_eq_true_eq,
      Bool.not_eq_true'] at helig
    exact ⟨rfl, s, hmem, helig.1.1, helig.1.2, helig.2, rfl⟩
  · intro r hrdb
    constructor <;> intro hid
    · have hid2 : r.id ∈ ((List.insertionSort claimOrder
          (db.filter (claimEligible jobId))).take limit).map (fun x => x.id) := by
        rw [← hidmap]; exact hid
      simp only [getNextFromQueue]
      refine List.mem_map.mpr ⟨r, hrdb, ?_⟩
      dsimp only
      rw [if_pos hid2]
    · have hid2 : r.id ∉ ((List.insertionSort claimOrder
          (db.filter (claimEligible jobId))).take limit).map (fun x => x.id) := by
        rw [← hidmap]; exact hid
      simp only [getNextFromQueue]
      refine List.mem_map.mpr ⟨r, hrdb, ?_⟩
      dsimp only
      rw [if_neg hid2]
  · intro r' hr'
    simp only [getNextFromQueue] at hr'
    rw [List.mem_map] at hr'
    obtain ⟨r, hrdb, hup⟩ := hr'
    by_cases hid : r.id ∈
        (((List.insertionSort claimOrder (db.filter (claimEligible jobId))).take
          limit).map (fun x => x.id))
    · right
      refine ⟨r, hrdb, ?_, ?_⟩
      · rw [hidmap]; exact hid
      · rw [← hup]
        rw [if_pos hid]
    · left
      rw [← hup]
      rw [if_neg hid]
      exact hrdb
  · intro r hr e hedb helig hid
    simp only [getNextFromQueue, List.mem_map] at hr
    obtain ⟨s, hs, rfl⟩ := hr
    have hsorted : List.Sorted claimOrder
        (List.insertionSort claimOrder (db.filter (claimEligible jobId))) :=
      List.sorted_insertionSort claimOrder _
    have hemem : e ∈ List.insertionSort claimOrder (db.filter (claimEligible jobId)) :=
      (List.mem_insertionSort claimOrder).2 (List.mem_filter.2 ⟨hedb, helig⟩)
    have hedrop : e ∈ (List.insertionSort claimOrder
        (db.filter (claimEligible jobId))).drop limit := by
      have hsplit : e ∈ (List.insertionSort claimOrder
          (db.filter (claimEligible jobId))).take limit ++
          (List.insertionSort claimOrder
            (db.filter (claimEligible jobId))).drop limit := by
        rw [List.take_append_drop]
        exact hemem
      rcases List.mem_append.1 hsplit with hin | hin
      · exfalso
        apply hid
        rw [hidmap]
        exact List.mem_map_of_mem _ hin
      · exact hin
    have horder : claimOrder s e :=
      hsorted.rel_of_mem_take_of_mem_drop hs hedrop
    exact horder

/-- Witness for `C4_getNextFromQueue_spec` at a concrete one-row table. -/
theorem C4_getNextFromQueue_spec_witness :
    (getNextFromQueue [⟨1, 2, "u", "nu", 0, 0, .pending, 0, 5, false⟩] 2 10).1.length
      ≤ 10 ∧
    (⟨1, 2, "u", "nu", 0, 0, .crawling, 0, 5, false⟩ : QueueRow).status = .crawling :=
  ⟨(C4_getNextFromQueue_spec [⟨1, 2, "u", "nu", 0, 0, .pending, 0, 5, false⟩] 2 10).1,
   ((C4_getNextFromQueue_spec [⟨1, 2, "u", "nu", 0, 0, .pending, 0, 5, false⟩] 2 10).2.1
      ⟨1, 2, "u", "nu", 0, 0, .crawling, 0, 5, false⟩ (by decide)).1⟩

/-! ### Character and list helper lemmas -/

theorem toNat_ofNat_valid {n : Nat} (h : n.isValidChar) :
    (Char.ofNat n).toNat = n := by
  rw [Char.ofNat, dif_pos h]
  rfl

theorem toLower_toLower (c : Char) : c.toLower.toLower = c.toLower := by
  unfold Char.toLower
  by_cases h : c.toNat ≥ 65 ∧ c.toNat ≤ 90
  · rw [if_pos h]
    have hv : (c.toNat + 32).isValidChar := Or.inl (by omega)
    have ht : (Char.ofNat (c.toNat + 32)).toNat = c.toNat + 32 :=
      toNat_ofNat_valid hv
    rw [if_neg (by omega)]
  · rw [if_neg h, if_neg h]

theorem lcStr_idem (l : Chars) : lcStr (lcStr l) = lcStr l := by
  induction l with
  | nil => rfl
  | cons c cs ih => simp only [lcStr, List.map_cons] at ih ⊢; rw [toLower_toLower]
                    exact congrArg _ (by simpa [lcStr] using ih)

theorem lcStr_length (l : Chars) : (lcStr l).length = l.length :=
  List.length_map l Char.toLower

/-- The `toLower` maps a character below code point 65 to itself. -/
theorem toLower_low {c : Char} (h : c.toNat < 65) : c.toLower = c := by
  unfold Char.toLower
  rw [if_neg (by omega)]

/-- Lower-casing cannot introduce a character below code point 65 (all URL
separators are in that range). -/
theorem mem_lcStr_low {x : Char} (hx : x.toNat < 65) {l : Chars} :
    x ∈ lcStr l ↔ x ∈ l := by
  constructor
  · intro hm
    obtain ⟨c, hc, heq⟩ := List.mem_map.1 hm
    by_cases h : c.toNat ≥ 65 ∧ c.toNat ≤ 90
    · exfalso
      have hv : (c.toNat + 32).isValidChar := Or.inl (by omega)
      have ht : c.toLower.toNat = c.toNat + 32 := by
        unfold Char.toLower
        rw [if_pos h]
        exact toNat_ofNat_valid hv
      have := congrArg Char.toNat heq
      omega
    · have : c.toLower = c := by unfold Char.toLower; rw [if_neg h]
      rw [this] at heq
      exact heq ▸ hc
  · intro hm
    have : x.toLower = x := toLower_low hx
    exact this ▸ List.mem_map_of_mem Char.toLower hm

/-! ### `splitFirst` / `splitAll` / `joinSep` lemmas -/

theorem splitFirst_of_not_mem {sep : Char} {l : Chars} (h : sep ∉ l) :
    splitFirst sep l = none := by
  induction l with
  | nil => rfl
  | cons c cs ih =>
      simp only [List.mem_cons, not_or] at h
      simp only [splitFirst, if_neg (Ne.symm h.1)]
      rw [ih h.2]

theorem splitFirst_append {sep : Char} {a b : Chars} (h : sep ∉ a) :
    splitFirst sep (a ++ sep :: b) = some (a, b) := by
  induction a with
  | nil => simp [splitFirst]
  | cons c cs ih =>
      simp only [List.mem_cons, not_or] at h
      simp only [List.cons_append, splitFirst, if_neg (Ne.symm h.1), List.append_eq]
      rw [ih h.2]

/-- Inversion: a successful split decomposes the list and the left part is
separator-free. -/
theorem splitFirst_eq_some {sep : Char} {l a b : Chars}
    (h : splitFirst sep l = some (a, b)) :
    l = a ++ sep :: b ∧ sep ∉ a := by
  induction l generalizing a b with
  | nil => simp [splitFirst] at h
  | cons c cs ih =>
      by_cases hc : c = sep
      · subst hc
        simp [splitFirst] at h
        obtain ⟨rfl, rfl⟩ := h
        exact ⟨rfl, List.not_mem_nil _⟩
      · simp only [splitFirst, if_neg hc] at h
        rcases hrec : splitFirst sep cs with _ | ⟨a', b'⟩ <;> rw [hrec] at h
        · simp at h
        · simp only [Option.map_some, Option.some.injEq, Prod.mk.injEq] at h
          obtain ⟨ha, hb⟩ := h
          obtain ⟨hcs, hna⟩ := ih hrec
          subst hb
          rw [← ha, hcs]
          refine ⟨rfl, ?_⟩
          simp only [List.mem_cons, not_or]
          exact ⟨Ne.symm hc, hna⟩

theorem splitFirstOr_of_not_mem {sep : Char} {l : Chars} (h : sep ∉ l) :
    splitFirstOr sep l = (l, none) := by
  simp [splitFirstOr, splitFirst_of_not_mem h]

theorem splitFirstOr_append {sep : Char} {a b : Chars} (h : sep ∉ a) :
    splitFirstOr sep (a ++ sep :: b) = (a, some b) := by
  simp [splitFirstOr, splitFirst_append h]

theorem splitAll_of_not_mem {sep : Char} {l : Chars} (h : sep ∉ l) :
    splitAll sep l = [l] := by
  induction l with
  | nil => rfl
  | cons c cs ih =>
      simp only [List.mem_cons, not_or] at h
      simp only [splitAll, if_neg (Ne.symm h.1)]
      rw [ih h.2]

theorem splitAll_ne_nil {sep : Char} {l : Chars} : splitAll sep l ≠ [] := by
  cases l with
  | nil => simp [splitAll]
  | cons c cs =>
      simp only [splitAll]
      split
      · simp
      · split
        · simp
        · simp

theorem splitAll_append_sep {sep : Char} {s t : Chars} (h : sep ∉ s) :
    splitAll sep (s ++ sep :: t) = s :: splitAll sep t := by
  induction s with
  | nil => simp [splitAll]
  | cons c cs ih =>
      simp only [List.mem_cons, not_or] at h
      simp only [List.cons_append, splitAll, if_neg (Ne.symm h.1), List.append_eq]
      rw [ih h.2]

theorem splitAll_joinSep {sep : Char} {segs : List Chars} (hne : segs ≠ [])
    (h : ∀ s ∈ segs, sep ∉ s) :
    splitAll sep (joinSep sep segs) = segs := by
  induction segs with
  | nil => exact absurd rfl hne
  | cons s rest ih =>
      cases rest with
      | nil =>
          simp only [joinSep]
          exact splitAll_of_not_mem (h s (List.mem_cons_self _ _))
      | cons s2 rest2 =>
          have hjoin : joinSep sep (s :: s2 :: rest2) =
              s ++ sep :: joinSep sep (s2 :: rest2) := rfl
          rw [hjoin, splitAll_append_sep (h s (List.mem_cons_self _ _))]
          rw [ih (by simp) (fun x hx => h x (List.mem_cons_of_mem _ hx))]

/-- Every character of a `splitAll` piece is a character of the input. -/
theorem mem_of_mem_splitAll {sep : Char} {l x : Chars} {c : Char}
    (hx : x ∈ splitAll sep l) (hc : c ∈ x) : c ∈ l := by
  induction l generalizing x with
  | nil =>
      simp only [splitAll, List.mem_singleton] at hx
      subst hx
      simp at hc
  | cons d ds ih =>
      simp only [splitAll] at hx
      split at hx
      · rcases List.mem_cons.1 hx with rfl | hx'
        · simp at hc
        · exact List.mem_cons_of_mem _ (ih hx' hc)
      · rcases hsp : splitAll sep ds with _ | ⟨hh, tt⟩ <;> rw [hsp] at hx
        · simp at hx
          subst hx
          simp only [List.mem_singleton] at hc
          subst hc
          exact List.mem_cons_self _ _
        · rcases List.mem_cons.1 hx with rfl | hx'
          · rcases List.mem_cons.1 hc with rfl | hc'
            · exact List.mem_cons_self _ _
            · refine List.mem_cons_of_mem _ (ih ?_ hc')
              rw [hsp]
              exact List.mem_cons_self _ _
          · exact List.mem_cons_of_mem _ (ih (by rw [hsp]; exact List.mem_cons_of_mem _ hx') hc)

/-- No `splitAll` piece contains the separator. -/
theorem sep_not_mem_splitAll {sep : Char} {l x : Chars}
    (hx : x ∈ splitAll sep l) : sep ∉ x := by
  induction l generalizing x with
  | nil =>
      simp only [splitAll, List.mem_singleton] at hx
      subst hx
      simp
  | cons d ds ih =>
      simp only [splitAll] at hx
      split at hx
      · rcases List.mem_cons.1 hx with rfl | hx'
        · simp
        · exact ih hx'
      · rename_i hd
        rcases hsp : splitAll sep ds with _ | ⟨hh, tt⟩
        all_goals rw [hsp] at hx
        · simp only [List.mem_singleton] at hx
          subst hx
          intro hmem
          exact hd (List.mem_singleton.1 hmem).symm
        · rcases List.mem_cons.1 hx with rfl | hx'
          · intro hmem
            rcases List.mem_cons.1 hmem with heq | hmem'
            · exact hd heq.symm
            · exact ih (by rw [hsp]; exact List.mem_cons_self _ _) hmem'
          · exact ih (by rw [hsp]; exact List.mem_cons_of_mem _ hx')

/-- Characters of `joinSep` pieces. -/
theorem mem_joinSep {sep : Char} {L : List Chars} {c : Char}
    (h : c ∈ joinSep sep L) : c = sep ∨ ∃ x ∈ L, c ∈ x := by
  induction L with
  | nil => simp [joinSep] at h
  | cons s rest ih =>
      cases rest with
      | nil =>
          simp only [joinSep] at h
          exact Or.inr ⟨s, List.mem_cons_self _ _, h⟩
      | cons s2 rest2 =>
          have : joinSep sep (s :: s2 :: rest2) =
              s ++ sep :: joinSep sep (s2 :: rest2) := rfl
          rw [this] at h
          rcases List.mem_append.1 h with h1 | h2
          · exact Or.inr ⟨s, List.mem_cons_self _ _, h1⟩
          · rcases List.mem_cons.1 h2 with rfl | h3
            · exact Or.inl rfl
            · rcases ih h3 with h4 | ⟨x, hx, hcx⟩
              · exact Or.inl h4
              · exact Or.inr ⟨x, List.mem_cons_of_mem _ hx, hcx⟩

theorem splitFirst_eq_none {sep : Char} {l : Chars}
    (h : splitFirst sep l = none) : sep ∉ l := by
  induction l with
  | nil => simp
  | cons c cs ih =>
      by_cases hc : c = sep
      · subst hc; simp [splitFirst] at h
      · simp only [splitFirst, if_neg hc] at h
        rcases hrec : splitFirst sep cs with _ | ⟨a, b⟩ <;> rw [hrec] at h
        · simp only [List.mem_cons, not_or]
          exact ⟨fun he => hc he.symm, ih hrec⟩
        · simp at h

theorem splitFirstOr_fst_not_mem (sep : Char) (l : Chars) :
    sep ∉ (splitFirstOr sep l).1 := by
  unfold splitFirstOr
  rcases hsp : splitFirst sep l with _ | ⟨a, b⟩
  · exact splitFirst_eq_none hsp
  · exact (splitFirst_eq_some hsp).2

theorem splitFirstOr_decomp (sep : Char) (l : Chars) :
    l = (splitFirstOr sep l).1 ++
      (match (splitFirstOr sep l).2 with | none => [] | some b => sep :: b) := by
  unfold splitFirstOr
  rcases hsp : splitFirst sep l with _ | ⟨a, b⟩
  · simp
  · simpa using (splitFirst_eq_some hsp).1

theorem mem_of_splitFirstOr_fst {sep : Char} {l : Chars} {c : Char}
    (h : c ∈ (splitFirstOr sep l).1) : c ∈ l := by
  rw [splitFirstOr_decomp sep l]
  exact List.mem_append_left _ h

theorem mem_of_splitFirstOr_snd {sep : Char} {l b : Chars} {c : Char}
    (h2 : (splitFirstOr sep l).2 = some b) (h : c ∈ b) : c ∈ l := by
  rw [splitFirstOr_decomp sep l, h2]
  exact List.mem_append_right _ (List.mem_cons_of_mem _ h)

theorem splitFirstOr_none_eq {sep : Char} {l : Chars}
    (h : (splitFirstOr sep l).2 = none) : (splitFirstOr sep l).1 = l := by
  have := splitFirstOr_decomp sep l
  rw [h] at this
  simpa using this.symm

/-- Characters of a scheme that passes `schemeOk`. -/
theorem schemeOk_not_mem {s : Chars} (h : schemeOk s = true) {c : Char}
    (ha : c.isAlpha = false) (hs : schemeCharOk c = false) : c ∉ s := by
  cases s with
  | nil => simp
  | cons d ds =>
      simp only [schemeOk, Bool.and_eq_true, List.all_eq_true] at h
      simp only [List.mem_cons, not_or]
      constructor
      · rintro rfl
        have h1 := h.1
        rw [ha] at h1
        exact Bool.false_ne_true h1
      · intro hmem
        have h2 := h.2 c hmem
        rw [hs] at h2
        exact Bool.false_ne_true h2

theorem all_digit_not_mem {p : Chars} (h : p.all Char.isDigit = true)
    {c : Char} (hc : c.isDigit = false) : c ∉ p := by
  intro hmem
  have := (List.all_eq_true.1 h) c hmem
  rw [hc] at this
  exact absurd this (by simp)

/-- Inversion of `parseHostPort`. -/
theorem parseHostPort_eq_some {hp hst : Chars} {p : Option Chars}
    (h : parseHostPort hp = some (hst, p)) :
    (p = none ∧ hst = lcStr hp ∧ hp ≠ [] ∧ ':' ∉ hp) ∨
    (∃ hraw praw, p = some praw ∧ hst = lcStr hraw ∧
      hp = hraw ++ ':' :: praw ∧ ':' ∉ hraw ∧ hraw ≠ [] ∧
      praw ≠ [] ∧ praw.all Char.isDigit = true) := by
  unfold parseHostPort at h
  rcases hsp : splitFirst ':' hp with _ | ⟨hraw, praw⟩ <;> rw [hsp] at h <;>
    dsimp only at h
  · by_cases he : hp.isEmpty
    · rw [if_pos he] at h; simp at h
    · rw [if_neg he] at h
      simp only [Option.some.injEq, Prod.mk.injEq] at h
      left
      refine ⟨h.2.symm, h.1.symm, ?_, splitFirst_eq_none hsp⟩
      intro hnil
      exact he (by simp [hnil])
  · obtain ⟨hdec, hnotin⟩ := splitFirst_eq_some hsp
    by_cases he : hraw.isEmpty
    · rw [if_pos he] at h; simp at h
    · rw [if_neg he] at h
      by_cases hd : (!praw.isEmpty && praw.all Char.isDigit) = true
      · rw [if_pos hd] at h
        simp only [Option.some.injEq, Prod.mk.injEq] at h
        simp only [Bool.and_eq_true, Bool.not_eq_true'] at hd
        right
        refine ⟨hraw, praw, h.2.symm, h.1.symm, hdec, hnotin, ?_, ?_, hd.2⟩
        · intro hnil
          exact he (by simp [hnil])
        · intro hnil
          rw [hnil] at hd
          simp at hd
      · rw [if_neg hd] at h
        simp at h

/-- All pairs produced by `parseQuery` from a `#`-free query string are
well-formed. -/
theorem parseQuery_wf {qs : Chars} (hq : '#' ∉ qs) :
    ∀ kv ∈ parseQuery (some qs), PairWF kv := by
  intro kv hkv
  simp only [parseQuery, List.mem_filterMap] at hkv
  obtain ⟨seg, hseg, hp⟩ := hkv
  have hns : '&' ∉ seg := sep_not_mem_splitAll hseg
  have hsub : ∀ c ∈ seg, c ∈ qs := fun c hc => mem_of_mem_splitAll hseg hc
  have hnh : '#' ∉ seg := fun hc => hq (hsub _ hc)
  unfold parsePair at hp
  by_cases hemp : seg.isEmpty
  · rw [if_pos hemp] at hp; simp at hp
  · rw [if_neg hemp] at hp
    rcases hsp : splitFirst '=' seg with _ | ⟨k, v⟩ <;> rw [hsp] at hp <;>
      dsimp only at hp
    · simp only [Option.some.injEq] at hp
      subst hp
      exact ⟨hns, splitFirst_eq_none hsp, hnh, by simp, by simp⟩
    · simp only [Option.some.injEq] at hp
      subst hp
      obtain ⟨hdec, hknotin⟩ := splitFirst_eq_some hsp
      have hk : ∀ c ∈ k, c ∈ seg := by
        intro c hc; rw [hdec]; exact List.mem_append_left _ hc
      have hv : ∀ c ∈ v, c ∈ seg := by
        intro c hc; rw [hdec]
        exact List.mem_append_right _ (List.mem_cons_of_mem _ hc)
      exact ⟨fun hc => hns (hk _ hc), hknotin, fun hc => hnh (hk _ hc),
        fun hc => hns (hv _ hc), fun hc => hnh (hv _ hc)⟩

/-- Every `parseUrl` result is well-formed. -/
theorem parseUrl_wf {s : Chars} {u : UrlModel} (h : parseUrl s = some u) :
    UrlWF u := by
  unfold parseUrl at h
  rcases hsp : splitFirst ':' s with _ | ⟨schRaw, rest⟩ <;> rw [hsp] at h <;>
    dsimp only at h
  · exact absurd h (by simp)
  · rcases rest with _ | ⟨c1, rest1⟩
    · simp at h
    rcases rest1 with _ | ⟨c2, rest2⟩
    · simp at h
    dsimp only at h
    by_cases hslash : c1 = '/' ∧ c2 = '/'
    · rw [if_pos hslash] at h
      by_cases hsch : schemeOk (lcStr schRaw) = true
      · rw [if_pos hsch] at h
        set bh := splitFirstOr '#' rest2 with hbh
        set hq := splitFirstOr '?' bh.1 with hhq
        set hpp := splitFirstOr '/' hq.1 with hhpp
        have hash1 : '#' ∉ bh.1 := by rw [hbh]; exact splitFirstOr_fst_not_mem _ _
        have hq1 : '?' ∉ hq.1 := by rw [hhq]; exact splitFirstOr_fst_not_mem _ _
        have hq1h : '#' ∉ hq.1 := by
          intro hc
          exact hash1 (by rw [hhq] at hc; exact mem_of_splitFirstOr_fst hc)
        have hs1 : '/' ∉ hpp.1 := by rw [hhpp]; exact splitFirstOr_fst_not_mem _ _
        have hs1q : '?' ∉ hpp.1 := by
          intro hc
          exact hq1 (by rw [hhpp] at hc; exact mem_of_splitFirstOr_fst hc)
        have hs1h : '#' ∉ hpp.1 := by
          intro hc
          exact hq1h (by rw [hhpp] at hc; exact mem_of_splitFirstOr_fst hc)
        rcases hhp : parseHostPort hpp.1 with _ | ⟨hst, p⟩ <;> rw [hhp] at h <;>
          dsimp only at h
        · exact absurd h (by simp)
        · simp only [Option.some.injEq] at h
          subst h
          have hostFacts : HostWF hst := by
            rcases parseHostPort_eq_some hhp with
              ⟨hpn, hhst, hne, hcol⟩ | ⟨hraw, praw, hps, hhst, hdec, hcol, hne, _, _⟩
            · subst hhst
              refine ⟨?_, lcStr_idem _, ?_, ?_, ?_, ?_⟩
              · intro hnil
                exact hne (by
                  have := congrArg List.length hnil
                  rw [lcStr_length] at this
                  exact List.length_eq_zero.1 this)
              · exact fun hc => hcol ((mem_lcStr_low (by decide)).1 hc)
              · exact fun hc => hs1 ((mem_lcStr_low (by decide)).1 hc)
              · exact fun hc => hs1q ((mem_lcStr_low (by decide)).1 hc)
              · exact fun hc => hs1h ((mem_lcStr_low (by decide)).1 hc)
            · subst hhst
              have hsubr : ∀ c ∈ hraw, c ∈ hpp.1 := by
                intro c hc; rw [hdec]; exact List.mem_append_left _ hc
              refine ⟨?_, lcStr_idem _, ?_, ?_, ?_, ?_⟩
              · intro hnil
                exact hne (by
                  have := congrArg List.length hnil
                  rw [lcStr_length] at this
                  exact List.length_eq_zero.1 this)
              · exact fun hc => hcol ((mem_lcStr_low (by decide)).1 hc)
              · exact fun hc => hs1 (hsubr _ ((mem_lcStr_low (by decide)).1 hc))
              · exact fun hc => hs1q (hsubr _ ((mem_lcStr_low (by decide)).1 hc))
              · exact fun hc => hs1h (hsubr _ ((mem_lcStr_low (by decide)).1 hc))
          have portFacts : PortWF (lcStr schRaw) (stripDefaultAtParse (lcStr schRaw) p) := by
            rcases p with _ | praw
            · simp [stripDefaultAtParse, PortWF]
            · rcases parseHostPort_eq_some hhp with
                ⟨hpn, _, _, _⟩ | ⟨hraw, praw', hps, _, _, _, _, hpne, hpdig⟩
              · simp at hpn
              · simp only [Option.some.injEq] at hps
                subst hps
                simp only [stripDefaultAtParse]
                by_cases hcond : ((lcStr schRaw = "http".data && praw = "80".data) ||
                    (lcStr schRaw = "https".data && praw = "443".data)) = true
                · rw [if_pos hcond]; exact trivial
                · rw [if_neg hcond]
                  refine ⟨hpne, hpdig, ?_⟩
                  simp only [stripDefaultAtParse]
                  rw [if_neg hcond]
          have pathFacts : PathWF (match hpp.2 with | none => ['/'] | some r => '/' :: r) := by
            rcases hp2 : hpp.2 with _ | r
            · exact ⟨⟨[], rfl⟩, by decide, by decide⟩
            · refine ⟨⟨r, rfl⟩, ?_, ?_⟩
              · simp only [List.mem_cons, not_or]
                refine ⟨by decide, ?_⟩
                intro hc
                apply hq1
                rw [hhpp] at hp2
                exact mem_of_splitFirstOr_snd hp2 hc
              · simp only [List.mem_cons, not_or]
                refine ⟨by decide, ?_⟩
                intro hc
                apply hq1h
                rw [hhpp] at hp2
                exact mem_of_splitFirstOr_snd hp2 hc
          have queryFacts : ∀ kv ∈ parseQuery hq.2, PairWF kv := by
            rcases hq2 : hq.2 with _ | qs
            · simp [parseQuery]
            · apply parseQuery_wf
              intro hc
              apply hash1
              rw [hhq] at hq2
              exact mem_of_splitFirstOr_snd hq2 hc
          exact ⟨⟨hsch, lcStr_idem _⟩, hostFacts, portFacts, pathFacts, queryFacts⟩
      · rw [if_neg hsch] at h
        exact absurd h (by simp)
    · rw [if_neg hslash] at h
      exact absurd h (by simp)

theorem filterMap_parsePair_map {ps : List (Chars × Chars)}
    (h : ∀ kv ∈ ps, '=' ∉ kv.1) :
    List.filterMap parsePair (ps.map fun kv => kv.1 ++ '=' :: kv.2) = ps := by
  induction ps with
  | nil => rfl
  | cons kv rest ih =>
      simp only [List.map_cons, List.filterMap_cons]
      have hpp : parsePair (kv.1 ++ '=' :: kv.2) = some kv := by
        unfold parsePair
        rw [if_neg (by simp)]
        rw [splitFirst_append (h kv (List.mem_cons_self _ _))]
      rw [hpp, ih (fun x hx => h x (List.mem_cons_of_mem _ hx))]

/-- The `URLSearchParams` round trip: parsing a serialized well-formed query
gives back the pairs. -/
theorem parseQuery_serializeQuery {ps : List (Chars × Chars)} (hne : ps ≠ [])
    (h : ∀ kv ∈ ps, PairWF kv) :
    parseQuery (some (serializeQuery ps)) = ps := by
  unfold parseQuery serializeQuery
  dsimp only
  rw [splitAll_joinSep (by simpa using hne) ?pieces]
  · exact filterMap_parsePair_map (fun kv hkv => (h kv hkv).2.1)
  case pieces =>
    intro x hx
    obtain ⟨kv, hkv, rfl⟩ := List.mem_map.1 hx
    intro hmem
    rcases List.mem_append.1 hmem with h1 | h2
    · exact (h kv hkv).1 h1
    · rcases List.mem_cons.1 h2 with heq | h3
      · exact absurd heq (by decide)
      · exact (h kv hkv).2.2.2.1 h3

theorem not_mem_portChars {sch : Chars} {p : Option Chars} (hWF : PortWF sch p)
    {c : Char} (hdig : c.isDigit = false) (hcol : c ≠ ':') : c ∉ portChars p := by
  rcases p with _ | q
  · simp [portChars]
  · obtain ⟨_, hq, _⟩ := hWF
    simp only [portChars, List.mem_cons, not_or]
    exact ⟨hcol, all_digit_not_mem hq hdig⟩

theorem not_mem_serializeQuery {q : List (Chars × Chars)}
    (h : ∀ kv ∈ q, PairWF kv) {c : Char} (hamp : c ≠ '&') (heq : c ≠ '=')
    (hk : ∀ kv ∈ q, c ∉ kv.1 ∧ c ∉ kv.2) : c ∉ serializeQuery q := by
  intro hmem
  unfold serializeQuery at hmem
  rcases mem_joinSep hmem with rfl | ⟨x, hx, hcx⟩
  · exact hamp rfl
  · obtain ⟨kv, hkv, rfl⟩ := List.mem_map.1 hx
    rcases List.mem_append.1 hcx with h1 | h2
    · exact (hk kv hkv).1 h1
    · rcases List.mem_cons.1 h2 with h3 | h4
      · exact heq h3
      · exact (hk kv hkv).2 h4

theorem hash_not_mem_queryChars {q : List (Chars × Chars)}
    (h : ∀ kv ∈ q, PairWF kv) : '#' ∉ queryChars q := by
  rcases q with _ | ⟨kv, rest⟩
  · simp [queryChars]
  · simp only [queryChars, List.mem_cons, not_or]
    refine ⟨by decide, ?_⟩
    exact not_mem_serializeQuery h (by decide) (by decide)
      (fun x hx => ⟨(h x hx).2.2.1, (h x hx).2.2.2.2⟩)

/-- The central round trip: serializing a well-formed URL and parsing it
back is the identity. -/
theorem parse_serialize {u : UrlModel} (hWF : UrlWF u) :
    parseUrl (serializeUrl u) = some u := by
  obtain ⟨⟨hsch, hslc⟩, hhost, hport, hpath, hquery⟩ := hWF
  obtain ⟨hhne, hhlc, hhcol, hhsl, hhq, hhh⟩ := hhost
  obtain ⟨⟨pt, hpt⟩, hpq2, hph⟩ := hpath
  have hcolon_scheme : ':' ∉ u.scheme :=
    schemeOk_not_mem hsch (by decide) (by decide)
  have hnh_port : '#' ∉ portChars u.port :=
    not_mem_portChars hport (by decide) (by decide)
  have hnq_port : '?' ∉ portChars u.port :=
    not_mem_portChars hport (by decide) (by decide)
  have hns_port : '/' ∉ portChars u.port :=
    not_mem_portChars hport (by decide) (by decide)
  have hnh_query : '#' ∉ queryChars u.query := hash_not_mem_queryChars hquery
  have hnot_hash_HPQ :
      '#' ∉ u.host ++ portChars u.port ++ u.path ++ queryChars u.query := by
    simp only [List.mem_append, not_or]
    exact ⟨⟨⟨hhh, hnh_port⟩, hph⟩, hnh_query⟩
  have hnot_q_HPP : '?' ∉ u.host ++ portChars u.port ++ u.path := by
    simp only [List.mem_append, not_or]
    exact ⟨⟨hhq, hnq_port⟩, hpq2⟩
  have hnot_s_HP : '/' ∉ u.host ++ portChars u.port := by
    simp only [List.mem_append, not_or]
    exact ⟨hhsl, hns_port⟩
  have hbh : splitFirstOr '#'
      (u.host ++ portChars u.port ++ u.path ++ queryChars u.query ++
        fragChars u.fragment) =
      (u.host ++ portChars u.port ++ u.path ++ queryChars u.query, u.fragment) := by
    rcases hfrag : u.fragment with _ | f
    · rw [show fragChars (none : Option Chars) = [] from rfl, List.append_nil]
      exact splitFirstOr_of_not_mem hnot_hash_HPQ
    · rw [show fragChars (some f) = '#' :: f from rfl]
      exact splitFirstOr_append hnot_hash_HPQ
  have hq3 : splitFirstOr '?'
      (u.host ++ portChars u.port ++ u.path ++ queryChars u.query) =
      (u.host ++ portChars u.port ++ u.path,
       match u.query with | [] => none | _ => some (serializeQuery u.query)) := by
    rcases hqq : u.query with _ | ⟨kv, rest⟩
    · rw [show queryChars ([] : List (Chars × Chars)) = [] from rfl, List.append_nil]
      exact splitFirstOr_of_not_mem hnot_q_HPP
    · rw [show queryChars (kv :: rest) = '?' :: serializeQuery (kv :: rest) from rfl]
      exact splitFirstOr_append hnot_q_HPP
  have hpp3 : splitFirstOr '/' (u.host ++ portChars u.port ++ u.path) =
      (u.host ++ portChars u.port, some pt) := by
    rw [hpt]
    exact splitFirstOr_append hnot_s_HP
  have hhp3 : parseHostPort (u.host ++ portChars u.port) = some (u.host, u.port) := by
    rcases hprt : u.port with _ | p
    · rw [show portChars (none : Option Chars) = [] from rfl, List.append_nil]
      unfold parseHostPort
      rw [splitFirst_of_not_mem hhcol]
      rw [if_neg (by simpa using hhne)]
      rw [hhlc]
    · rw [show portChars (some p) = ':' :: p from rfl]
      unfold parseHostPort
      rw [splitFirst_append hhcol]
      dsimp only
      rw [if_neg (by simpa using hhne)]
      rw [hprt] at hport
      obtain ⟨hpne, hpdig, _⟩ := hport
      rw [if_pos (by simp [hpdig, List.isEmpty_iff, hpne])]
      rw [hhlc]
  have hstrip : stripDefaultAtParse u.scheme u.port = u.port := by
    rcases hprt : u.port with _ | p
    · rfl
    · rw [hprt] at hport
      exact hport.2.2
  have h1 : splitFirst ':' (serializeUrl u) =
      some (u.scheme, '/' :: '/' ::
        (u.host ++ portChars u.port ++ u.path ++ queryChars u.query ++
          fragChars u.fragment)) :=
    splitFirst_append hcolon_scheme
  unfold parseUrl
  rw [h1]
  dsimp only
  rw [if_pos ⟨rfl, rfl⟩, hslc, if_pos hsch, hbh]
  dsimp only
  rw [hq3, hpp3]
  dsimp only
  rw [hhp3]
  dsimp only
  rw [hstrip, ← hpt]
  rcases hqq : u.query with _ | ⟨kv, rest⟩
  · dsimp only [parseQuery]
    rw [show u = ⟨u.scheme, u.host, u.port, u.path, u.query, u.fragment⟩ from rfl,
      hqq]
  · dsimp only
    rw [parseQuery_serializeQuery (by simp) (by rw [← hqq]; exact hquery)]
    rw [show u = ⟨u.scheme, u.host, u.port, u.path, u.query, u.fragment⟩ from rfl,
      hqq]

theorem filter_self_idem {α : Type} (p : α → Bool) (l : List α) :
    (l.filter p).filter p = l.filter p := by
  induction l with
  | nil => rfl
  | cons a t ih =>
      by_cases hp : p a
      · simp only [List.filter_cons, hp, if_true, ih]
      · simp only [List.filter_cons, hp]
        simpa [hp] using ih

theorem stripTrailingSlash_idem {p : Chars} (hgp : GoodPath p) :
    stripTrailingSlash (stripTrailingSlash p) = stripTrailingSlash p := by
  unfold stripTrailingSlash
  by_cases h1 : 1 < p.length ∧ p.getLast? = some '/'
  · rw [if_pos h1]
    by_cases h2 : 1 < p.dropLast.length ∧ p.dropLast.getLast? = some '/'
    · exfalso
      apply hgp
      have hlen : p.dropLast.length = p.length - 1 := List.length_dropLast p
      exact ⟨by omega, h1.2, h2.2⟩
    · rw [if_neg h2]
  · rw [if_neg h1, if_neg h1]

/-- For a well-formed URL, `normalizeUrlModel` simplifies: the host is
already lower case and the port already non-default, so only the path,
query and fragment change. -/
theorem normalizeUrlModel_eq_of_wf {u : UrlModel} (hWF : UrlWF u) :
    normalizeUrlModel u =
      { scheme := u.scheme, host := u.host, port := u.port,
        path := stripTrailingSlash u.path,
        query := (sortPairs u.query).filter (fun kv => !isTrackingKey kv.1),
        fragment := none } := by
  obtain ⟨sch, hst, prt, pth, qry, frg⟩ := u
  obtain ⟨_, ⟨_, hhlc, _, _, _, _⟩, hport, _, _⟩ := hWF
  simp only at hhlc hport ⊢
  unfold normalizeUrlModel stripDefaultPort
  dsimp only
  rw [hhlc]
  rcases prt with _ | q
  · rw [if_neg (by simp)]
  · simp only [PortWF] at hport
    obtain ⟨_, _, hstrip⟩ := hport
    unfold stripDefaultAtParse at hstrip
    dsimp only at hstrip
    by_cases hc : ((sch = "http".data && some q = some "80".data) ||
        (sch = "https".data && some q = some "443".data)) = true
    · exfalso
      rw [if_pos (by
        simp only [Bool.or_eq_true, Bool.and_eq_true, decide_eq_true_eq,
          Option.some.injEq] at hc
        simp only [Bool.or_eq_true, Bool.and_eq_true, decide_eq_true_eq]
        exact hc)] at hstrip
      exact Option.noConfusion hstrip
    · rw [if_neg hc]

theorem sortPairs_sorted (ps : List (Chars × Chars)) :
    List.Sorted pairLe (sortPairs ps) :=
  List.sorted_insertionSort pairLe ps

/-- Normalization preserves well-formedness. -/
theorem normalizeUrlModel_wf {u : UrlModel} (hWF : UrlWF u) :
    UrlWF (normalizeUrlModel u) := by
  rw [normalizeUrlModel_eq_of_wf hWF]
  obtain ⟨hscheme, hhost, hport, hpath, hquery⟩ := hWF
  obtain ⟨⟨pt, hpt⟩, hpq, hph⟩ := hpath
  refine ⟨hscheme, hhost, hport, ?_, ?_⟩
  · unfold stripTrailingSlash
    by_cases h1 : 1 < u.path.length ∧ u.path.getLast? = some '/'
    · rw [if_pos h1]
      have hsub : ∀ c ∈ u.path.dropLast, c ∈ u.path :=
        fun c hc => (List.dropLast_sublist u.path).mem hc
      refine ⟨?_, fun hc => hpq (hsub _ hc), fun hc => hph (hsub _ hc)⟩
      rcases pt with _ | ⟨d, ds⟩
      · rw [hpt] at h1
        simp at h1
      · rw [hpt]
        exact ⟨(d :: ds).dropLast, by simp [List.dropLast_cons_of_ne_nil]⟩
    · rw [if_neg h1]
      exact ⟨⟨pt, hpt⟩, hpq, hph⟩
  · intro kv hkv
    have h1 : kv ∈ sortPairs u.query := List.mem_of_mem_filter hkv
    have h2 : kv ∈ u.query := (List.mem_insertionSort pairLe).1 h1
    exact hquery kv h2

/-- On well-formed inputs with a good path, the normalization transform is
idempotent. -/
theorem normalizeUrlModel_idem {u : UrlModel} (hWF : UrlWF u)
    (hgp : GoodPath u.path) :
    normalizeUrlModel (normalizeUrlModel u) = normalizeUrlModel u := by
  have hWF2 := normalizeUrlModel_wf hWF
  rw [normalizeUrlModel_eq_of_wf hWF2, normalizeUrlModel_eq_of_wf hWF]
  dsimp only
  rw [stripTrailingSlash_idem hgp]
  have hsorted2 : List.Sorted pairLe
      ((sortPairs u.query).filter (fun kv => !isTrackingKey kv.1)) :=
    List.Pairwise.sublist (List.filter_sublist _) (sortPairs_sorted u.query)
  rw [show sortPairs ((sortPairs u.query).filter (fun kv => !isTrackingKey kv.1))
      = (sortPairs u.query).filter (fun kv => !isTrackingKey kv.1) from
    List.Sorted.insertionSort_eq hsorted2]
  rw [filter_self_idem]

/-- Claim C8 counterexample: `normalizeUrl` strips only one trailing slash
per application, so it is not idempotent — on `https://a.test/a//` one
application gives `https://a.test/a/` and a second gives
`https://a.test/a`. -/
theorem C8_counterexample :
    normalizeUrl (normalizeUrl "https://a.test/a//") ≠
      normalizeUrl "https://a.test/a//" := by decide

/-- Claim C8 (amended): `normalizeUrl` is idempotent on every string that
does not parse (it passes through unchanged) and on every URL whose parsed
path does not end in two or more slashes; only the multi-trailing-slash
paths violate idempotence, because each application strips exactly one
trailing slash. -/
theorem C8_normalizeUrl_idem_amended (s : String)
    (h : parsesGoodPath s = true) :
    normalizeUrl (normalizeUrl s) = normalizeUrl s := by
  rcases hp : parseUrl s.data with _ | u
  · simp [normalizeUrl, hp]
  · have hWF := parseUrl_wf hp
    have hgp : GoodPath u.path := by
      unfold parsesGoodPath at h
      rw [hp] at h
      exact of_decide_eq_true h
    have h1 : normalizeUrl s = String.mk (serializeUrl (normalizeUrlModel u)) := by
      unfold normalizeUrl
      rw [hp]
    rw [h1]
    have hWFn := normalizeUrlModel_wf hWF
    have h2 : parseUrl (String.mk (serializeUrl (normalizeUrlModel u))).data
        = some (normalizeUrlModel u) := parse_serialize hWFn
    unfold normalizeUrl
    rw [h2]
    dsimp only
    rw [normalizeUrlModel_idem hWF hgp]

/-- Witness for `C8_normalizeUrl_idem_amended` at a concrete URL. -/
theorem C8_normalizeUrl_idem_amended_witness :
    parsesGoodPath "https://a.test/p?b=2&a=1&utm_source=x#top" = true ∧
    normalizeUrl (normalizeUrl "https://a.test/p?b=2&a=1&utm_source=x#top") =
      normalizeUrl "https://a.test/p?b=2&a=1&utm_source=x#top" :=
  ⟨by decide, C8_normalizeUrl_idem_amended _ (by decide)⟩

theorem splitFirstOr_cons_ne {sep c : Char} {l : Chars} (h : c ≠ sep) :
    splitFirstOr sep (c :: l) =
      (c :: (splitFirstOr sep l).1, (splitFirstOr sep l).2) := by
  unfold splitFirstOr
  simp only [splitFirst]
  rw [if_neg h]
  rcases hsp : splitFirst sep l with _ | ⟨a, b⟩ <;> rfl

theorem mem_upToLastSlash {p : Chars} {c : Char} (h : c ∈ upToLastSlash p) :
    c ∈ p := by
  induction p with
  | nil => simp [upToLastSlash] at h
  | cons d ds ih =>
      unfold upToLastSlash at h
      by_cases hm : '/' ∈ ds
      · rw [if_pos hm] at h
        rcases List.mem_cons.1 h with rfl | h2
        · exact List.mem_cons_self _ _
        · exact List.mem_cons_of_mem _ (ih h2)
      · rw [if_neg hm] at h
        by_cases hd : d = '/'
        · rw [if_pos hd] at h
          simp only [List.mem_singleton] at h
          subst h
          rw [hd]
          exact List.mem_cons_self _ _
        · rw [if_neg hd] at h
          simp at h

theorem upToLastSlash_slash_cons (t : Chars) :
    ∃ t2, upToLastSlash ('/' :: t) = '/' :: t2 := by
  unfold upToLastSlash
  by_cases hm : '/' ∈ t
  · rw [if_pos hm]
    exact ⟨upToLastSlash t, rfl⟩
  · rw [if_neg hm, if_pos rfl]
    exact ⟨[], rfl⟩

theorem parseQuery_snd_wf {l : Chars} (hl : '#' ∉ l) :
    ∀ kv ∈ parseQuery (splitFirstOr '?' l).2, PairWF kv := by
  rcases hq : (splitFirstOr '?' l).2 with _ | qs
  · simp [parseQuery]
  · exact parseQuery_wf (fun hc => hl (mem_of_splitFirstOr_snd hq hc))

/-- Every `resolveUrl` result is well-formed. -/
theorem resolveUrl_wf {href base : Chars} {u : UrlModel}
    (h : resolveUrl href base = some u) : UrlWF u := by
  unfold resolveUrl at h
  rcases hah : parseUrl href with _ | v <;> rw [hah] at h <;> dsimp only at h
  case some =>
    simp only [Option.some.injEq] at h
    subst h
    exact parseUrl_wf hah
  rcases hb : parseUrl base with _ | b <;> rw [hb] at h <;> dsimp only at h
  · exact absurd h (by simp)
  have hbWF := parseUrl_wf hb
  rcases href with _ | ⟨c, rest⟩
  · simp only [Option.some.injEq] at h
    subst h
    exact hbWF
  dsimp only at h
  by_cases h1 : c = '/' ∧ rest.head? = some '/'
  · rw [if_pos h1] at h
    exact parseUrl_wf h
  rw [if_neg h1] at h
  obtain ⟨hscheme, hhost, hport, hpath, hquery⟩ := hbWF
  obtain ⟨⟨pt, hpt⟩, hbpq, hbph⟩ := hpath
  by_cases h2 : c = '/'
  · rw [if_pos h2] at h
    simp only [Option.some.injEq] at h
    subst h
    subst h2
    have hbh : splitFirstOr '#' ('/' :: rest) =
        ('/' :: (splitFirstOr '#' rest).1, (splitFirstOr '#' rest).2) :=
      splitFirstOr_cons_ne (by decide)
    refine ⟨hscheme, hhost, hport, ?_, ?_⟩
    · rw [hbh]
      dsimp only
      have hpq : splitFirstOr '?' ('/' :: (splitFirstOr '#' rest).1) =
          ('/' :: (splitFirstOr '?' (splitFirstOr '#' rest).1).1,
           (splitFirstOr '?' (splitFirstOr '#' rest).1).2) :=
        splitFirstOr_cons_ne (by decide)
      rw [hpq]
      dsimp only
      refine ⟨⟨_, rfl⟩, ?_, ?_⟩
      · simp only [List.mem_cons, not_or]
        exact ⟨by decide, splitFirstOr_fst_not_mem _ _⟩
      · simp only [List.mem_cons, not_or]
        refine ⟨by decide, ?_⟩
        intro hc
        exact splitFirstOr_fst_not_mem '#' rest
          (mem_of_splitFirstOr_fst hc)
    · rw [hbh]
      dsimp only
      have hpq : splitFirstOr '?' ('/' :: (splitFirstOr '#' rest).1) =
          ('/' :: (splitFirstOr '?' (splitFirstOr '#' rest).1).1,
           (splitFirstOr '?' (splitFirstOr '#' rest).1).2) :=
        splitFirstOr_cons_ne (by decide)
      rw [hpq]
      dsimp only
      exact parseQuery_snd_wf (splitFirstOr_fst_not_mem '#' rest)
  rw [if_neg h2] at h
  by_cases h3 : c = '?'
  · rw [if_pos h3] at h
    simp only [Option.some.injEq] at h
    subst h
    exact ⟨hscheme, hhost, hport, ⟨⟨pt, hpt⟩, hbpq, hbph⟩,
      parseQuery_wf (fun hc => splitFirstOr_fst_not_mem '#' rest hc)⟩
  rw [if_neg h3] at h
  by_cases h4 : c = '#'
  · rw [if_pos h4] at h
    simp only [Option.some.injEq] at h
    subst h
    exact ⟨hscheme, hhost, hport, ⟨⟨pt, hpt⟩, hbpq, hbph⟩, hquery⟩
  rw [if_neg h4] at h
  simp only [Option.some.injEq] at h
  subst h
  refine ⟨hscheme, hhost, hport, ?_, ?_⟩
  · obtain ⟨t2, ht2⟩ := upToLastSlash_slash_cons pt
    have hup : ∀ x ∈ upToLastSlash b.path, x ∈ b.path :=
      fun x hx => mem_upToLastSlash hx
    refine ⟨⟨t2 ++ (splitFirstOr '?' (splitFirstOr '#' (c :: rest)).1).1, ?_⟩, ?_, ?_⟩
    · rw [hpt, ht2]
      simp [List.cons_append]
    · intro hc
      rcases List.mem_append.1 hc with hc1 | hc2
      · exact hbpq (hup _ hc1)
      · exact splitFirstOr_fst_not_mem '?' _ hc2
    · intro hc
      rcases List.mem_append.1 hc with hc1 | hc2
      · exact hbph (hup _ hc1)
      · exact splitFirstOr_fst_not_mem '#' (c :: rest)
          (mem_of_splitFirstOr_fst hc2)
  · exact parseQuery_snd_wf (splitFirstOr_fst_not_mem '#' (c :: rest))

/-- Inversion of the per-href loop body: a produced link comes from a
non-skipped href that resolved to an in-domain absolute URL, and is its
normalization. -/
theorem processHref_eq_some {href : Chars} {base domain l : String}
    (h : processHref href base domain = some l) :
    skipHref href = false ∧
    ∃ u, resolveUrl href base.data = some u ∧
      isInDomain (String.mk (serializeUrl u)) domain = true ∧
      l = normalizeUrl (String.mk (serializeUrl u)) := by
  unfold processHref at h
  by_cases hskip : skipHref href = true
  · rw [if_pos hskip] at h
    simp at h
  · rw [if_neg hskip] at h
    rcases hres : resolveUrl href base.data with _ | u <;> rw [hres] at h <;>
      dsimp only at h
    · simp at h
    · by_cases hdom : isInDomain (String.mk (serializeUrl u)) domain = true
      · rw [if_pos hdom] at h
        simp only [Option.some.injEq] at h
        exact ⟨by simpa using hskip, u, rfl, hdom, h.symm⟩
      · rw [if_neg hdom] at h
        simp at h

/-- Every produced link is itself an in-domain URL that parses. -/
theorem processHref_element_facts {href : Chars} {base domain l : String}
    (h : processHref href base domain = some l) :
    isInDomain l domain = true ∧ ∃ m, parseUrl l.data = some m := by
  obtain ⟨hskip, u, hres, hdom, hl⟩ := processHref_eq_some h
  have hWF := resolveUrl_wf hres
  have hrt : parseUrl (String.mk (serializeUrl u)).data = some u :=
    parse_serialize hWF
  have hl2 : l = String.mk (serializeUrl (normalizeUrlModel u)) := by
    rw [hl]
    unfold normalizeUrl
    rw [hrt]
  have hWFn := normalizeUrlModel_wf hWF
  have hrt2 : parseUrl l.data = some (normalizeUrlModel u) := by
    rw [hl2]
    exact parse_serialize hWFn
  refine ⟨?_, ⟨_, hrt2⟩⟩
  unfold isInDomain at hdom ⊢
  rw [hrt] at hdom
  rw [hrt2]
  dsimp only at hdom ⊢
  have hhost : (normalizeUrlModel u).host = u.host := by
    rw [normalizeUrlModel_eq_of_wf hWF]
  rw [hhost]
  exact hdom

theorem extractLinksGo_not_mem_seen {base domain : String} :
    ∀ (hrefs : List Chars) (seen : List String) (x : String),
      x ∈ extractLinksGo base domain hrefs seen → x ∉ seen := by
  intro hrefs
  induction hrefs with
  | nil => intro seen x hx; simp [extractLinksGo] at hx
  | cons h t ih =>
      intro seen x hx
      unfold extractLinksGo at hx
      rcases hph : processHref h base domain with _ | n <;> rw [hph] at hx <;>
        dsimp only at hx
      · exact ih seen x hx
      · by_cases hn : n ∈ seen
        · rw [if_pos hn] at hx
          exact ih seen x hx
        · rw [if_neg hn] at hx
          rcases List.mem_cons.1 hx with rfl | hx2
          · exact hn
          · intro hxseen
            exact ih (n :: seen) x hx2 (List.mem_cons_of_mem _ hxseen)

theorem extractLinksGo_nodup {base domain : String} :
    ∀ (hrefs : List Chars) (seen : List String),
      (extractLinksGo base domain hrefs seen).Nodup := by
  intro hrefs
  induction hrefs with
  | nil => intro seen; simp [extractLinksGo]
  | cons h t ih =>
      intro seen
      unfold extractLinksGo
      rcases hph : processHref h base domain with _ | n <;> dsimp only
      · exact ih seen
      · by_cases hn : n ∈ seen
        · rw [if_pos hn]
          exact ih seen
        · rw [if_neg hn]
          refine List.nodup_cons.2 ⟨?_, ih (n :: seen)⟩
          intro hmem
          exact extractLinksGo_not_mem_seen t (n :: seen) n hmem
            (List.mem_cons_self _ _)

theorem extractLinksGo_provenance {base domain : String} :
    ∀ (hrefs : List Chars) (seen : List String) (x : String),
      x ∈ extractLinksGo base domain hrefs seen →
      ∃ href ∈ hrefs, processHref href base domain = some x := by
  intro hrefs
  induction hrefs with
  | nil => intro seen x hx; simp [extractLinksGo] at hx
  | cons h t ih =>
      intro seen x hx
      unfold extractLinksGo at hx
      rcases hph : processHref h base domain with _ | n <;> rw [hph] at hx <;>
        dsimp only at hx
      · obtain ⟨href, hh, hp⟩ := ih seen x hx
        exact ⟨href, List.mem_cons_of_mem _ hh, hp⟩
      · by_cases hn : n ∈ seen
        · rw [if_pos hn] at hx
          obtain ⟨href, hh, hp⟩ := ih seen x hx
          exact ⟨href, List.mem_cons_of_mem _ hh, hp⟩
        · rw [if_neg hn] at hx
          rcases List.mem_cons.1 hx with rfl | hx2
          · exact ⟨h, List.mem_cons_self _ _, hph⟩
          · obtain ⟨href, hh, hp⟩ := ih (n :: seen) x hx2
            exact ⟨href, List.mem_cons_of_mem _ hh, hp⟩

/-- Claim C9 counterexample: the fixed-point conjunct fails.  On
`<a href="/a//">` with base `https://a.test/x` the extractor emits
`https://a.test/a/` (normalization of `https://a.test/a//` strips one
slash), and that element is not a fixed point of `normalizeUrl`. -/
theorem C9_counterexample :
    "https://a.test/a/" ∈ extractLinks "<a href=\"/a//\">" "https://a.test/x" "a.test" ∧
    normalizeUrl "https://a.test/a/" ≠ "https://a.test/a/" := by decide

/-- Claim C9 (amended): `extractLinks` returns a duplicate-free list; every
element is an absolute URL (it parses) that is in-domain, and is the
`normalizeUrl`-image of an absolute in-domain URL resolved from some href
of the html that does not start with `#`, `javascript:`, `mailto:` or
`tel:`.  (Elements need not be `normalizeUrl` fixed points — see the
counterexample.) -/
theorem C9_extractLinks_amended (html base domain : String) :
    (extractLinks html base domain).Nodup ∧
    ∀ l ∈ extractLinks html base domain,
      isInDomain l domain = true ∧
      (∃ m, parseUrl l.data = some m) ∧
      ∃ href ∈ collectHrefs html.data, skipHref href = false ∧
        ∃ u, resolveUrl href base.data = some u ∧
          isInDomain (String.mk (serializeUrl u)) domain = true ∧
          l = normalizeUrl (String.mk (serializeUrl u)) := by
  refine ⟨extractLinksGo_nodup _ _, ?_⟩
  intro l hl
  obtain ⟨href, hhref, hph⟩ := extractLinksGo_provenance _ _ l hl
  obtain ⟨hin, hm⟩ := processHref_element_facts hph
  obtain ⟨hskip, u, hres, hdom, hlu⟩ := processHref_eq_some hph
  exact ⟨hin, hm, href, hhref, hskip, u, hres, hdom, hlu⟩

/-- Witness for `C9_extractLinks_amended` at a concrete page. -/
theorem C9_extractLinks_amended_witness :
    (extractLinks "<a href=\"/b\">" "https://a.test/x" "a.test").Nodup ∧
    isInDomain "https://a.test/b" "a.test" = true :=
  ⟨(C9_extractLinks_amended "<a href=\"/b\">" "https://a.test/x" "a.test").1,
   ((C9_extractLinks_amended "<a href=\"/b\">" "https://a.test/x" "a.test").2
      "https://a.test/b" (by decide)).1⟩
